import Mathlib

/-!
Verification development for the Murasaki-Translator middleware
(ASS document round-trip layer and the two character-level repair passes).

Strings are modelled as `List Char`.  Python's `str` operations
(`strip`, `split`, `replace`, substring containment) and the concrete
regular expressions of the source are embedded as executable functions
on `List Char`.  Python regex `\s` is modelled by the White_Space set
used by `str.isspace`; `\d` is modelled by the ASCII digits (every
digit produced by this program is ASCII).
-/

set_option maxHeartbeats 2000000

/-- The whitespace set of Python `str.isspace` / regex `\s` (str patterns). -/
def isPySpace (c : Char) : Bool :=
  let n := c.toNat
  (9 ≤ n && n ≤ 13) || (28 ≤ n && n ≤ 32) || n == 133 || n == 160 ||
  n == 5760 || (8192 ≤ n && n ≤ 8202) || n == 8232 || n == 8233 ||
  n == 8239 || n == 8287 || n == 12288

/-- ASCII decimal digit (model of regex `\d` for the streams of this program). -/
def isDig (c : Char) : Bool :=
  48 ≤ c.toNat && c.toNat ≤ 57

/-- Python `str.strip()` (strip `isPySpace` from both ends). -/
def pyStrip (l : List Char) : List Char :=
  ((l.dropWhile isPySpace).reverse.dropWhile isPySpace).reverse

/-- Python substring test `pat in l`. -/
def containsSub (l pat : List Char) : Bool :=
  pat.isPrefixOf l ||
    match l with
    | [] => false
    | _ :: t => containsSub t pat

/-- Python `l.replace(pat, rep)`: leftmost, non-overlapping, all
occurrences; the fuel bounds the scan length (each step consumes at least
one character of the input). -/
def replaceSubF (pat rep : List Char) : Nat → List Char → List Char
  | 0, l => l
  | _ + 1, [] => []
  | f + 1, c :: t =>
    if pat.isPrefixOf (c :: t) ∧ pat ≠ [] then
      rep ++ replaceSubF pat rep f ((c :: t).drop pat.length)
    else
      c :: replaceSubF pat rep f t

/-- Python `l.replace(pat, rep)`. -/
def replaceSub (pat rep l : List Char) : List Char := replaceSubF pat rep l.length l

namespace KanaFixer

/-- `KANA_TO_CLEAN`: the residual particle / small-kana set of the source. -/
def kanaToClean : List Char :=
  ['ッ', 'っ', 'ぁ', 'ぃ', 'ぅ', 'ぇ', 'ぉ', 'ゃ', 'ゅ', 'ょ', 'ゎ',
   'の', 'は', 'に', 'を', 'た', 'て', 'で']

/-- `is_japanese_char` on a present character: hiragana, katakana or CJK range. -/
def isJaChar (c : Char) : Bool :=
  let n := c.toNat
  (0x3040 ≤ n && n ≤ 0x309F) || (0x30A0 ≤ n && n ≤ 0x30FF) ||
  (0x4E00 ≤ n && n ≤ 0x9FFF)

/-- `is_japanese_char` lifted to the `None`-able neighbours of the scan. -/
def optJa : Option Char → Bool
  | none => false
  | some c => isJaChar c

/-- `PROTECTION_PAIRS`: opening glyph to its matching closer. -/
def pairClose (c : Char) : Option Char :=
  if c = '“' then some '”'
  else if c = '‘' then some '’'
  else if c = '「' then some '」'
  else if c = '『' then some '』'
  else if c = '（' then some '）'
  else if c = '(' then some ')'
  else if c = '《' then some '》'
  else if c = '〈' then some '〉'
  else if c = '【' then some '】'
  else if c = '［' then some '］'
  else if c = '[' then some ']'
  else none

/-- Symmetric-quote protection: `prev in ['"', "'", '`'] and next == prev`. -/
def isSymQuote (c : Char) : Bool :=
  c.toNat == 34 || c.toNat == 39 || c.toNat == 96

/-- The bracket/quote protection test of the scan. -/
def isProtected (prev next : Option Char) : Bool :=
  match prev with
  | none => false
  | some p =>
    (match pairClose p with
     | some cl => next == some cl
     | none => false) ||
    (isSymQuote p && next == some p)

/-- The sentence-final / closing punctuation set (the literal string of the
source, which ends with an ideographic ellipsis and an ASCII space). -/
def closingPunct : List Char :=
  ['。', '！', '？', '，', '；', '：', '”', '」', '』', '）', '〉', '》',
   '】', '］', ']', '…', ' ']

/-- `next_char is None or next_char in "。！？，；：”」』）〉》】］]… "`. -/
def atEndFun : Option Char → Bool
  | none => true
  | some nc => closingPunct.contains nc

/-- The per-character retention decision of `KanaFixer.fix`. -/
def keepFun (prev : Option Char) (c : Char) (next : Option Char) : Bool :=
  if kanaToClean.contains c then
    if optJa prev || optJa next || isProtected prev next then true
    else if atEndFun next then false
    else true
  else true

/-- Retention decision at index `i` of the scanned string, `dst[i-1]` /
`dst[i+1]` giving the neighbours (`None` outside the string). -/
def keepAt (dst : List Char) (i : Nat) (c : Char) : Bool :=
  keepFun (if i = 0 then none else dst.get? (i - 1)) c (dst.get? (i + 1))

/-- The `for i, char in enumerate(dst)` loop of `fix`, accumulating kept
characters; the second argument is the remaining suffix `dst.drop i`. -/
def fixAux (dst : List Char) : Nat → List Char → List Char
  | _, [] => []
  | i, c :: rest =>
    if keepAt dst i c then c :: fixAux dst (i + 1) rest
    else fixAux dst (i + 1) rest

/-- `KanaFixer.fix`: empty fast path, residual-free fast path, else the scan. -/
def fix (dst : List Char) : List Char :=
  if dst = [] then dst
  else if ¬ dst.any (fun c => kanaToClean.contains c) then dst
  else fixAux dst 0 dst

/-- Windowed reformulation of the scan: carries the previous original
character; the original right neighbour is the head of the rest. -/
def fixWin (prev : Option Char) : List Char → List Char
  | [] => []
  | c :: rest =>
    if keepFun prev c rest.head? then c :: fixWin (some c) rest
    else fixWin (some c) rest

/-- The amended retention rule, in the claim's priority order:
source-script neighbour, matching enclosing pair, else drop exactly when
followed by end-of-text or a character of the code's literal trigger set
`closingPunct` — which, unlike the claim's punctuation category, also
contains an ASCII space — else keep. -/
def specKeep (prev : Option Char) (c : Char) (next : Option Char) : Bool :=
  if ¬ kanaToClean.contains c then true
  else if optJa prev || optJa next then true
  else if isProtected prev next then true
  else if atEndFun next then false
  else true

/-- `specKeep` applied at index `i` with the original neighbours. -/
def specKeepAt (dst : List Char) (i : Nat) (c : Char) : Bool :=
  specKeep (if i = 0 then none else dst.get? (i - 1)) c (dst.get? (i + 1))

/-- Positional filter induced by the specification rule. -/
def specFilterAux (dst : List Char) : Nat → List Char → List Char
  | _, [] => []
  | i, c :: rest =>
    if specKeepAt dst i c then c :: specFilterAux dst (i + 1) rest
    else specFilterAux dst (i + 1) rest

/-- The whole-string filter described by the specification. -/
def specFilter (dst : List Char) : List Char :=
  specFilterAux dst 0 dst

end KanaFixer

namespace NumberFixer

/-- Circled-number glyph: the five ranges of `PATTERN_CIRCLED_NUM`
(`①-⑳`, `㉑-㉟`, `㊱-㊿`, `❶-❿`, `⓫-⓴`). -/
def isCircled (c : Char) : Bool :=
  let n := c.toNat
  (0x2460 ≤ n && n ≤ 0x2473) || (0x3251 ≤ n && n ≤ 0x325F) ||
  (0x32B1 ≤ n && n ≤ 0x32BF) || (0x2776 ≤ n && n ≤ 0x277F) ||
  (0x24EB ≤ n && n ≤ 0x24F4)

/-- `PATTERN_ALL_NUM.findall`: left-to-right scan for `\d+|[circled]`
tokens (maximal digit runs, single circled glyphs). -/
def findAllNums : List Char → List (List Char)
  | [] => []
  | c :: rest =>
    if isDig c then
      (c :: rest.takeWhile isDig) :: findAllNums (rest.dropWhile isDig)
    else if isCircled c then [c] :: findAllNums rest
    else findAllNums rest
  termination_by l => l.length
  decreasing_by
    · refine Nat.lt_of_le_of_lt (List.Sublist.length_le (List.dropWhile_sublist _)) ?_
      simp
    · simp
    · simp

/-- Decimal value of an (all-digit) token. -/
def decVal (t : List Char) : Nat :=
  t.foldl (fun a c => a * 10 + (c.toNat - 48)) 0

/-- `safe_int`: `int(s)` on a token, `-1` when conversion fails (a circled
glyph is not a decimal numeral). -/
def safeInt (t : List Char) : Int :=
  if t ≠ [] ∧ t.all isDig then (decVal t : Int) else -1

/-- `PATTERN_CIRCLED_NUM.match(tok)`: the token starts with a circled glyph. -/
def matchCircled : List Char → Bool
  | [] => false
  | c :: _ => isCircled c

/-- The counting substitution of `fix_by_index`: re-scan the string with the
same token pattern, replacing the token whose running index is the target. -/
def fbAux (targetI : Nat) (targetStr : List Char) : Nat → List Char → List Char
  | _, [] => []
  | j, c :: rest =>
    if isDig c then
      (if j = targetI then targetStr else c :: rest.takeWhile isDig) ++
        fbAux targetI targetStr (j + 1) (rest.dropWhile isDig)
    else if isCircled c then
      (if j = targetI then targetStr else [c]) ++ fbAux targetI targetStr (j + 1) rest
    else c :: fbAux targetI targetStr j rest
  termination_by _ l => l.length
  decreasing_by
    · refine Nat.lt_of_le_of_lt (List.Sublist.length_le (List.dropWhile_sublist _)) ?_
      simp
    · simp
    · simp

/-- `NumberFixer.fix_by_index`. -/
def fixByIndex (dst : List Char) (targetI : Nat) (targetStr : List Char) : List Char :=
  fbAux targetI targetStr 0 dst

/-- `NumberFixer.fix`: fast path when the source has no circled glyph, else
the positional restoration loop over the two token streams (`src_nums`,
`dst_nums`), both computed once from the original inputs. -/
def fix (src dst : List Char) : List Char :=
  if ¬ src.any isCircled then dst
  else
    (List.range (min (findAllNums src).length (findAllNums dst).length)).foldl
      (fun d i =>
        if matchCircled ((findAllNums src).getD i []) &&
            decide (safeInt ((findAllNums dst).getD i []) > 0)
        then fixByIndex d i ((findAllNums src).getD i [])
        else d) dst

/-- Proof-side view of the token scan: the string cut into non-token
characters and tokens, in order. -/
inductive NPiece where
  | junk : Char → NPiece
  | tok : List Char → NPiece
deriving DecidableEq

/-- Cut a string into pieces with the `\d+|[circled]` token pattern. -/
def scanN : List Char → List NPiece
  | [] => []
  | c :: rest =>
    if isDig c then
      NPiece.tok (c :: rest.takeWhile isDig) :: scanN (rest.dropWhile isDig)
    else if isCircled c then NPiece.tok [c] :: scanN rest
    else NPiece.junk c :: scanN rest
  termination_by l => l.length
  decreasing_by
    · refine Nat.lt_of_le_of_lt (List.Sublist.length_le (List.dropWhile_sublist _)) ?_
      simp
    · simp
    · simp

/-- Characters of one piece. -/
def pieceChars : NPiece → List Char
  | NPiece.junk c => [c]
  | NPiece.tok t => t

/-- Reassemble a piece list into a string. -/
def renderN (ps : List NPiece) : List Char :=
  ps.foldr (fun p acc => pieceChars p ++ acc) []

/-- The tokens of a piece list. -/
def toksOf (ps : List NPiece) : List (List Char) :=
  ps.filterMap (fun p => match p with | NPiece.tok t => some t | _ => none)

/-- Structural invariant of one piece. -/
def pieceOk : NPiece → Prop
  | NPiece.junk c => isDig c = false ∧ isCircled c = false
  | NPiece.tok t =>
      (∃ c, t = [c] ∧ isCircled c = true) ∨
      (t ≠ [] ∧ ∀ c ∈ t, isDig c = true)

/-- A digit-run token piece. -/
def isDigRun (p : NPiece) : Prop :=
  ∃ t, p = NPiece.tok t ∧ t ≠ [] ∧ ∀ c ∈ t, isDig c = true

/-- The rendered string does not begin with a digit. -/
def notDigStart (ps : List NPiece) : Prop :=
  ∀ c, (renderN ps).head? = some c → isDig c = false

/-- Well-formed piece list: every piece is structurally sound and a digit
run is never immediately followed by a digit. -/
def wfN : List NPiece → Prop
  | [] => True
  | p :: ps => pieceOk p ∧ (isDigRun p → notDigStart ps) ∧ wfN ps

/-- Replace tokens by running index, keeping non-token characters. -/
def replaceToks (f : Nat → List Char → List Char) : Nat → List NPiece → List NPiece
  | _, [] => []
  | j, NPiece.junk c :: ps => NPiece.junk c :: replaceToks f j ps
  | j, NPiece.tok t :: ps => NPiece.tok (f j t) :: replaceToks f (j + 1) ps

/-- One-pass specification of the restoration: tokenize both texts, and
replace the i-th token of the translated text (positional index, below the
shorter stream length) by the i-th source token whenever that source token
is a circled glyph and the translated token is a positive digit run. -/
def onePass (src dst : List Char) : List Char :=
  if ¬ src.any isCircled then dst
  else
    renderN (replaceToks
      (fun j t =>
        if j < min (findAllNums src).length (findAllNums dst).length ∧
            (matchCircled ((findAllNums src).getD j []) &&
              decide (safeInt ((findAllNums dst).getD j []) > 0)) = true
        then (findAllNums src).getD j [] else t)
      0 (scanN dst))

end NumberFixer

/-! Further Python string primitives used by the ASS document handler. -/

/-- Prepend a character onto the first piece of a split result. -/
def consHead (c : Char) : List (List Char) → List (List Char)
  | [] => [[c]]
  | p :: ps => (c :: p) :: ps

/-- Python `l.split(sep)` on a single-character separator, no limit. -/
def pySplitChar (sep : Char) : List Char → List (List Char)
  | [] => [[]]
  | c :: t => if c = sep then [] :: pySplitChar sep t else consHead c (pySplitChar sep t)

/-- Python `l.split(sep, maxsplit)` on a single-character separator. -/
def pySplitCharMax (sep : Char) : Nat → List Char → List (List Char)
  | _, [] => [[]]
  | 0, l => [l]
  | m + 1, c :: t =>
    if c = sep then [] :: pySplitCharMax sep m t
    else consHead c (pySplitCharMax sep (m + 1) t)

/-- Python `sep.join(pieces)` on a single-character separator. -/
def joinChar (sep : Char) : List (List Char) → List Char
  | [] => []
  | [p] => p
  | p :: ps => p ++ sep :: joinChar sep ps

/-- Python `l.split(chr(10) + chr(10))`: split on a double newline,
leftmost, non-overlapping. -/
def splitNN : List Char → List (List Char)
  | [] => [[]]
  | [c] => [[c]]
  | c1 :: c2 :: t =>
    if c1 = '\n' ∧ c2 = '\n' then [] :: splitNN t
    else consHead c1 (splitNN (c2 :: t))

/-- Strip one leading byte-order mark, as the safety check of `load` does. -/
def bomStrip (l : List Char) : List Char :=
  match l with
  | c :: t => if c = '﻿' then t else l
  | [] => l

/-- ASCII lowering (model of `str.lower()`; the styles compared against
the `default` placeholder are ASCII). -/
def lowerChar (c : Char) : Char :=
  if 65 ≤ c.toNat ∧ c.toNat ≤ 90 then Char.ofNat (c.toNat + 32) else c

/-- Python `str.lower()` (ASCII model). -/
def pyLower (l : List Char) : List Char := l.map lowerChar

/-- `str.zfill(2)` on the digit strings of this program (no sign handling
is needed for them). -/
def zfill2 (l : List Char) : List Char :=
  if l.length < 2 then List.replicate (2 - l.length) '0' ++ l else l

/-- `str.ljust(2, chr(48))`. -/
def ljust2 (l : List Char) : List Char :=
  if l.length < 2 then l ++ List.replicate (2 - l.length) '0' else l

/-- Decimal rendering of a natural number (`f-string` of the running event
index); the fuel argument bounds the digit count. -/
def natStrAux : Nat → Nat → List Char
  | 0, _ => []
  | f + 1, n =>
    if n < 10 then [Char.ofNat (48 + n)]
    else natStrAux f (n / 10) ++ [Char.ofNat (48 + n % 10)]

/-- Decimal rendering of a natural number. -/
def natStr (n : Nat) : List Char := natStrAux (n + 1) n

namespace AssDocument

/-- One step of the karaoke-tag removal: try to match the tag pattern
(an opening brace, a backslash, `k` or `K`, an optional `f` or `o`, one or
more digits, a closing brace) at the head, returning the rest on success. -/
def karaokeMatch (l : List Char) : Option (List Char) :=
  match l with
  | '{' :: '\\' :: c :: t =>
    if c = 'k' ∨ c = 'K' then
      match t with
      | [] => none
      | d :: t2 =>
        if d = 'f' ∨ d = 'o' then
          match t2 with
          | e :: _ =>
            if isDig e then
              match t2.dropWhile isDig with
              | '}' :: r => some r
              | _ => none
            else none
          | [] => none
        else if isDig d then
          match t.dropWhile isDig with
          | '}' :: r => some r
          | _ => none
        else none
    else none
  | _ => none

/-- The karaoke-tag removal `re.sub` of `load`: delete every leftmost,
non-overlapping match of the tag pattern; fuel bounds the scan length. -/
def stripKaraokeF : Nat → List Char → List Char
  | 0, l => l
  | f + 1, l =>
    match karaokeMatch l with
    | some r => stripKaraokeF f r
    | none =>
      match l with
      | [] => []
      | c :: t => c :: stripKaraokeF f t

/-- Karaoke-tag removal (a match consumes at least one character, so
`l.length` steps always complete the scan). -/
def stripKaraoke (l : List Char) : List Char := stripKaraokeF l.length l

/-- `_ass_time_to_srt`: convert `H:MM:SS.cs` to `HH:MM:SS,ms`, degrading
to the zero timestamp when the colon structure is wrong.  (The enclosing
`except` branch of the source is unreachable: none of the string
operations used can raise.) -/
def assTimeToSrt (t : List Char) : List Char :=
  if (pySplitChar ':' ((pySplitChar '.' (pyStrip t)).getD 0 [])).length = 3 then
    zfill2 ((pySplitChar ':' ((pySplitChar '.' (pyStrip t)).getD 0 [])).getD 0 []) ++
      ':' :: (pySplitChar ':' ((pySplitChar '.' (pyStrip t)).getD 0 [])).getD 1 [] ++
      ':' :: (pySplitChar ':' ((pySplitChar '.' (pyStrip t)).getD 0 [])).getD 2 [] ++
      ',' :: (ljust2 (if (pySplitChar '.' (pyStrip t)).length > 1
                      then (pySplitChar '.' (pyStrip t)).getD 1 []
                      else ('0' :: ['0'])) ++ ['0'])
  else ('0' :: '0' :: ':' :: '0' :: '0' :: ':' :: '0' :: '0' :: ',' :: '0' :: '0' :: ['0'])

/-- Does a style name start with a digit (`re.match` of `load`)? -/
def startsDigit : List Char → Bool
  | [] => false
  | c :: _ => isDig c

/-- The inline context prefix injected by `load`: a bracketed actor tag
when the actor is non-empty and not already in the text, then a
parenthesised style tag when the style is meaningful. -/
def mkCtx (actor style rawK : List Char) : List Char :=
  (if actor ≠ [] ∧ ¬ containsSub rawK actor = true
   then '[' :: actor ++ [']'] else []) ++
  (if style ≠ [] ∧ pyLower style ≠ ("default").data ∧ ¬ startsDigit style = true ∧
      ¬ containsSub rawK style = true
   then '(' :: style ++ [')'] else [])

/-- The annotated text of one event (`{context} {text}` inline). -/
def finalPrompt (actor style rawK : List Char) : List Char :=
  if mkCtx actor style rawK ≠ [] then mkCtx actor style rawK ++ ' ' :: rawK else rawK

/-- The encoded pseudo-SRT block of one event. -/
def pseudoBlock (idx : Nat) (startT endT text : List Char) : List Char :=
  natStr idx ++ '\n' :: assTimeToSrt startT ++ (' ' :: '-' :: '-' :: '>' :: [' ']) ++
    assTimeToSrt endT ++ '\n' :: text ++ ('\n' :: ['\n'])

/-- Accumulated result of `AssDocument.load`: preserved header lines, the
per-event templates (prefixes) and the encoded items.  (The source also
stores the `Format:` line and the final event count in object fields that
`save` never reads; they are not modelled.) -/
structure LoadOut where
  headers : List (List Char)
  templates : List (List Char)
  items : List (List Char)

/-- The line loop of `AssDocument.load`, threading the in-events flag and
the running one-based event index. -/
def loadAux : Bool → Nat → List (List Char) → LoadOut
  | _, _, [] => ⟨[], [], []⟩
  | isEvents, idx, line :: rest =>
    let l := bomStrip (pyStrip line)
    if l = [] then
      let r := loadAux isEvents idx rest
      ⟨l :: r.headers, r.templates, r.items⟩
    else if (("[Events]").data).isPrefixOf l then
      let r := loadAux true idx rest
      ⟨l :: r.headers, r.templates, r.items⟩
    else if isEvents then
      if (("Format:").data).isPrefixOf l then
        let r := loadAux isEvents idx rest
        ⟨l :: r.headers, r.templates, r.items⟩
      else if (("Dialogue:").data).isPrefixOf l then
        if (pySplitCharMax ',' 9 l).length < 10 then
          let r := loadAux isEvents idx rest
          ⟨l :: r.headers, r.templates, r.items⟩
        else
          let parts := pySplitCharMax ',' 9 l
          let rawK := stripKaraoke (parts.getD 9 [])
          let block := pseudoBlock idx (pyStrip (parts.getD 1 [])) (pyStrip (parts.getD 2 []))
            (finalPrompt (pyStrip (parts.getD 4 [])) (pyStrip (parts.getD 3 [])) rawK)
          let r := loadAux isEvents (idx + 1) rest
          ⟨r.headers, (joinChar ',' (parts.take 9) ++ [',']) :: r.templates, block :: r.items⟩
      else
        let r := loadAux isEvents idx rest
        ⟨l :: r.headers, r.templates, r.items⟩
    else
      let r := loadAux isEvents idx rest
      ⟨l :: r.headers, r.templates, r.items⟩

/-- `AssDocument.load` on the decoded lines of the file. -/
def load (lines : List (List Char)) : LoadOut := loadAux false 1 lines

/-! The tolerant header pattern of `save`,
`(?:^|\n)\s*\d+\s*\n\s*TS\s*[-=>]+\s*TS.*?(?:\n|$)` with
`TS = \d{2}:\d{2}:\d{2}[,.]\d{1,3}`, compiled to a backtracking matcher in
continuation style: each combinator takes the continuation for the rest of
the pattern and returns the suffix after the whole match. -/

namespace Rx

/-- Prioritised choice of the backtracking matcher. -/
def oalt (a b : Option (List Char)) : Option (List Char) :=
  match a with
  | some x => some x
  | none => b

/-- Match one character of a class. -/
def cls (p : Char → Bool) (k : List Char → Option (List Char)) :
    List Char → Option (List Char)
  | [] => none
  | c :: l => if p c then k l else none

/-- Greedy star over a character class, with backtracking. -/
def star (p : Char → Bool) (k : List Char → Option (List Char)) :
    List Char → Option (List Char)
  | [] => k []
  | c :: l => if p c then oalt (star p k l) (k (c :: l)) else k (c :: l)

/-- Match one literal character. -/
def lit (c : Char) (k : List Char → Option (List Char)) :
    List Char → Option (List Char) :=
  cls (fun d => d == c) k

/-- Greedy plus over a character class. -/
def plus (p : Char → Bool) (k : List Char → Option (List Char)) :
    List Char → Option (List Char) :=
  cls p (star p k)

/-- Exactly two characters of a class. -/
def rep2 (p : Char → Bool) (k : List Char → Option (List Char)) :
    List Char → Option (List Char) :=
  cls p (cls p k)

/-- One to three characters of a class, greedy. -/
def rep13 (p : Char → Bool) (k : List Char → Option (List Char)) :
    List Char → Option (List Char) :=
  cls p (fun l =>
    oalt (cls p (fun l2 => oalt (cls p k l2) (k l2)) l) (k l))

/-- The separator class `[-=>]`. -/
def isArrowChar (c : Char) : Bool := c == '-' || c == '=' || c == '>'

/-- The millisecond separator class `[,.]`. -/
def isMsSep (c : Char) : Bool := c == ',' || c == '.'

/-- The timestamp sub-pattern `\d{2}:\d{2}:\d{2}[,.]\d{1,3}`. -/
def tsPat (k : List Char → Option (List Char)) : List Char → Option (List Char) :=
  rep2 isDig (lit ':' (rep2 isDig (lit ':' (rep2 isDig (cls isMsSep (rep13 isDig k))))))

/-- The final `.*?(?:\n|$)` of the pattern: with the always-succeeding end
continuation, the lazy scan consumes up to and including the next newline
(or to the end of the input; the zero-width before-newline branch of the
multiline `$` is then unreachable). -/
def lazyTill : List Char → Option (List Char)
  | [] => some []
  | c :: l => if c == '\n' then some l else lazyTill l

/-- The trailing `\s*[-=>]+\s*TS.*?(?:\n|$)` of the pattern. -/
def tsTail : List Char → Option (List Char) :=
  star isPySpace (plus isArrowChar (star isPySpace (tsPat lazyTill)))

/-- The `\s*TS...` part after the index line. -/
def tsPart : List Char → Option (List Char) :=
  star isPySpace (tsPat tsTail)

/-- The `\s*\n...` part after the index digits. -/
def idxTail : List Char → Option (List Char) :=
  star isPySpace (lit '\n' tsPart)

/-- The pattern after its `(?:^|\n)` anchor group. -/
def afterStart : List Char → Option (List Char) :=
  star isPySpace (plus isDig idxTail)

end Rx

/-- Try the whole header pattern at one position; `atLS` tells whether the
multiline `^` matches here (start of stream or just after a newline).  The
group `(?:^|\n)` tries the zero-width `^` first, then consumes a newline. -/
def headerMatchAt (atLS : Bool) (l : List Char) : Option (List Char) :=
  if atLS then Rx.oalt (Rx.afterStart l) (Rx.lit '\n' Rx.afterStart l)
  else Rx.lit '\n' Rx.afterStart l

/-- `re.split` on the header pattern: scan left to right, cutting a
segment at every match; `pending` holds the reversed current segment.  A
match always consumes at least one character (its `\d+`), so `l.length`
scan steps suffice for the fuel. -/
def hsplitF : Nat → List Char → Bool → List Char → List (List Char)
  | 0, pending, _, l => [pending.reverse ++ l]
  | f + 1, pending, atLS, l =>
    match headerMatchAt atLS l with
    | some r => pending.reverse :: hsplitF f [] true r
    | none =>
      match l with
      | [] => [pending.reverse]
      | c :: t => hsplitF f (c :: pending) (c == '\n') t

/-- The segment list produced by splitting a stream on the header pattern. -/
def headerSegments (l : List Char) : List (List Char) :=
  hsplitF (l.length + 1) [] true l

/-- The recovered translation units of `save`: the segments after the
first header when the pattern matched, else the blank-line fallback. -/
def translatedUnits (fs : List Char) : List (List Char) :=
  if (headerSegments fs).length > 1 then ((headerSegments fs).tail).map pyStrip
  else ((splitNN fs).map pyStrip).filter (fun s => !s.isEmpty)

/-- Scan to just after the first closing character (stopping at a newline,
which `.` cannot cross), for the lazy bracket/paren groups. -/
def takeThroughCloser (closers : List Char) : List Char → Option (List Char)
  | [] => none
  | c :: t =>
    if closers.contains c then some t
    else if c = '\n' then none
    else takeThroughCloser closers t

/-- The optional leading group `\[.*?\]|【.*?】` of the context-strip
pattern (when the lazy body cannot reach a closer the group matches
nothing). -/
def stripBracketOnce (l : List Char) : List Char :=
  match l with
  | [] => l
  | c :: t =>
    if c = '[' then
      match takeThroughCloser [']'] t with
      | some r => r
      | none => l
    else if c = '【' then
      match takeThroughCloser ['】'] t with
      | some r => r
      | none => l
    else l

/-- The optional following group `[\(（].*?[\)）]`. -/
def stripParenOnce (l : List Char) : List Char :=
  match l with
  | c :: t =>
    if c = '(' ∨ c = '（' then
      match takeThroughCloser (')' :: ['）']) t with
      | some r => r
      | none => l
    else l
  | [] => l

/-- The single leading match removed by
`re.sub(r'^(?:\[.*?\]|【.*?】)?(?:[\(（].*?[\)）])?\s*', '', t)`:
bracket group, then paren group, then whitespace. -/
def stripCtx (l : List Char) : List Char :=
  (stripParenOnce (stripBracketOnce l)).dropWhile isPySpace

/-- The `\N\N` collapse loop of `save`; each pass that finds the pattern
shortens the text by at least two characters, so `l.length` passes always
reach the fixpoint. -/
def dedupNF : Nat → List Char → List Char
  | 0, l => l
  | f + 1, l =>
    if containsSub l ('\\' :: 'N' :: '\\' :: ['N']) then
      dedupNF f (replaceSub ('\\' :: 'N' :: '\\' :: ['N']) ('\\' :: ['N']) l)
    else l

/-- Collapse every run of two or more `\N` escapes into one. -/
def dedupN (l : List Char) : List Char := dedupNF l.length l

/-- The per-unit cleanup of the binding loop: strip the injected context
hint and surrounding whitespace, escape newlines to `\N`, collapse
duplicated escapes. -/
def bindCleanup (u : List Char) : List Char :=
  dedupN (replaceSub ['\n'] ('\\' :: ['N']) (pyStrip (stripCtx u)))

/-- The reconstructed event lines: one line per template, the bound text
taken positionally (empty when no unit remains). -/
def saveEventLines (templates units : List (List Char)) : List (List Char) :=
  (List.range templates.length).map
    (fun i => templates.getD i [] ++ bindCleanup (units.getD i []))

/-- The combined stream of `save`: every non-empty block content followed
by a blank line. -/
def buildStream : List (List Char) → List Char
  | [] => []
  | b :: bs => if b = [] then buildStream bs else b ++ '\n' :: '\n' :: buildStream bs

/-- The line-break normalisation of `save` (`\N` then `\n` escapes to
real newlines). -/
def normalizeStream (l : List Char) : List Char :=
  replaceSub ('\\' :: ['n']) ['\n'] (replaceSub ('\\' :: ['N']) ['\n'] l)

/-- Result of `AssDocument.save`: the non-fatal mismatch report, the
reconstructed event lines, and the written file lines (headers first,
then events). -/
structure SaveOut where
  mismatch : Bool
  eventLines : List (List Char)
  fileLines : List (List Char)

/-- `AssDocument.save` for a loaded document and the block contents of the
transformer response. -/
def save (doc : LoadOut) (blocks : List (List Char)) : SaveOut :=
  ⟨decide ((translatedUnits (normalizeStream (buildStream blocks))).length ≠
      doc.templates.length),
   saveEventLines doc.templates (translatedUnits (normalizeStream (buildStream blocks))),
   doc.headers ++
     saveEventLines doc.templates (translatedUnits (normalizeStream (buildStream blocks)))⟩

/-- Ghost record of one parsed Dialogue line (for stating round-trip
facts): the stripped line and its bounded comma split. -/
structure DInfo where
  line : List Char
  parts : List (List Char)

/-- The parsed Dialogue lines of a document, with the same classification
as `loadAux`. -/
def parseDs : Bool → List (List Char) → List DInfo
  | _, [] => []
  | isEvents, line :: rest =>
    let l := bomStrip (pyStrip line)
    if l = [] then parseDs isEvents rest
    else if (("[Events]").data).isPrefixOf l then parseDs true rest
    else if isEvents then
      if (("Format:").data).isPrefixOf l then parseDs isEvents rest
      else if (("Dialogue:").data).isPrefixOf l then
        if (pySplitCharMax ',' 9 l).length < 10 then parseDs isEvents rest
        else ⟨l, pySplitCharMax ',' 9 l⟩ :: parseDs isEvents rest
      else parseDs isEvents rest
    else parseDs isEvents rest

/-- The header-classified lines of a document (ghost view of `loadAux`). -/
def headerLinesOf : Bool → List (List Char) → List (List Char)
  | _, [] => []
  | isEvents, line :: rest =>
    let l := bomStrip (pyStrip line)
    if l = [] then l :: headerLinesOf isEvents rest
    else if (("[Events]").data).isPrefixOf l then l :: headerLinesOf true rest
    else if isEvents then
      if (("Format:").data).isPrefixOf l then l :: headerLinesOf isEvents rest
      else if (("Dialogue:").data).isPrefixOf l then
        if (pySplitCharMax ',' 9 l).length < 10 then l :: headerLinesOf isEvents rest
        else headerLinesOf isEvents rest
      else l :: headerLinesOf isEvents rest
    else l :: headerLinesOf isEvents rest

/-- The original (stripped) Dialogue lines, in order. -/
def loadDialogues (lines : List (List Char)) : List (List Char) :=
  (parseDs false lines).map (fun d => d.line)

/-- The template prefix of a parsed dialogue. -/
def prefixOf (d : DInfo) : List Char := joinChar ',' (d.parts.take 9) ++ [',']

/-- The karaoke-stripped free text of a parsed dialogue. -/
def rawKOf (d : DInfo) : List Char := stripKaraoke (d.parts.getD 9 [])

/-- The annotated text of a parsed dialogue. -/
def textOf (d : DInfo) : List Char :=
  finalPrompt (pyStrip (d.parts.getD 4 [])) (pyStrip (d.parts.getD 3 [])) (rawKOf d)

/-- The encoded block of a parsed dialogue at a given index. -/
def blockOf (idx : Nat) (d : DInfo) : List Char :=
  pseudoBlock idx (pyStrip (d.parts.getD 1 [])) (pyStrip (d.parts.getD 2 [])) (textOf d)

/-- The encoded blocks of a dialogue list, indices counting from `idx`. -/
def blocksFrom (idx : Nat) : List DInfo → List (List Char)
  | [] => []
  | d :: ds => blockOf idx d :: blocksFrom (idx + 1) ds

/-- Exact `HH:MM:SS,mmm` shape (two-digit fields, comma, three millisecond
digits): the well-formed timestamp class for which the tolerant header
pattern recognises the blocks this program emits. -/
def strictSrt (t : List Char) : Bool :=
  match t with
  | [a, b, x, c, d, y, e, f, z, g, h, i] =>
    isDig a && isDig b && (x == ':') && isDig c && isDig d && (y == ':') &&
    isDig e && isDig f && (z == ',') && isDig g && isDig h && isDig i
  | _ => false

/-- The literal arrow separator of a pseudo-SRT time line. -/
def arrowLit : List Char := ' ' :: '-' :: '-' :: '>' :: [' ']

/-- A double newline. -/
def nl2 : List Char := ['\n', '\n']

/-- The four newlines that separate a block text from the next header. -/
def nl4 : List Char := ['\n', '\n', '\n', '\n']

/-- The combined stream obtained from the encoded blocks of a document
(each block is followed by the separator `save` appends). -/
def streamOf : Nat → List DInfo → List Char
  | _, [] => []
  | idx, d :: ds => blockOf idx d ++ nl2 ++ streamOf (idx + 1) ds

/-- The segments the header split recovers from such a stream: the text of
each block, the last one keeping the trailing separator newlines. -/
def segsFrom : List Char → List DInfo → List (List Char)
  | text, [] => [text ++ nl4]
  | text, d :: ds => text :: segsFrom (textOf d) ds

/-- The opener characters of the context-strip pattern. -/
def openersHint : List Char := ['[', '【', '(', '（']

/-- The round-trip safety conditions of one parsed dialogue: the
no-target-condition side of the specification claim (no karaoke tag, no
backslash escapes, a text that neither starts with whitespace, a digit or
an opener of the strip pattern nor ends with whitespace, tag texts that do
not close their own delimiters, and timestamps that convert to the exact
SRT shape). -/
def safeD (d : DInfo) : Bool :=
  decide (stripKaraoke (d.parts.getD 9 []) = d.parts.getD 9 []) &&
  !((rawKOf d).contains '\\') && !((rawKOf d).contains '\n') &&
  (match (rawKOf d).head? with
   | none => true
   | some c => !(isPySpace c) && !(isDig c) && !(openersHint.contains c)) &&
  (match (rawKOf d).getLast? with
   | none => true
   | some c => !(isPySpace c)) &&
  !((pyStrip (d.parts.getD 4 [])).contains ']') &&
  !((pyStrip (d.parts.getD 4 [])).contains '\\') &&
  !((pyStrip (d.parts.getD 4 [])).contains '\n') &&
  !((pyStrip (d.parts.getD 3 [])).contains ')') &&
  !((pyStrip (d.parts.getD 3 [])).contains '）') &&
  !((pyStrip (d.parts.getD 3 [])).contains '\\') &&
  !((pyStrip (d.parts.getD 3 [])).contains '\n') &&
  strictSrt (assTimeToSrt (pyStrip (d.parts.getD 1 []))) &&
  strictSrt (assTimeToSrt (pyStrip (d.parts.getD 2 [])))

/-- All parsed dialogues of a document satisfy the safety conditions. -/
def docOk (lines : List (List Char)) : Bool :=
  (parseDs false lines).all safeD

/-- Modelled from the specification claim for the hint-stripping step:
one optional bracket tag and one optional paren tag are stripped in either
order (bracket-then-paren or paren-then-bracket), then leading whitespace.
Used only to compare the claimed behaviour with the implemented one. -/
def stripHintSpec (l : List Char) : List Char :=
  match l with
  | '(' :: _ => (stripBracketOnce (stripParenOnce l)).dropWhile isPySpace
  | '（' :: _ => (stripBracketOnce (stripParenOnce l)).dropWhile isPySpace
  | _ => (stripParenOnce (stripBracketOnce l)).dropWhile isPySpace

end AssDocument

/-- Subsequence test on line lists (order-preserving containment). -/
def isSubseq : List (List Char) → List (List Char) → Bool
  | [], _ => true
  | _ :: _, [] => false
  | a :: as, b :: bs => if a = b then isSubseq as bs else isSubseq (a :: as) bs

namespace KanaFixer

/-- Modelled from the specification claim for the retention rule: the
claim's "sentence-final/closing punctuation mark" category — the code's
literal set without its trailing ASCII space, which is not a punctuation
mark.  Used only to compare the claimed drop condition with the
implemented one. -/
def closingPunctClaim : List Char :=
  ['。', '！', '？', '，', '；', '：', '”', '」', '』', '）', '〉', '》',
   '】', '］', ']', '…']

/-- Modelled from the specification claim: end-of-text or a
sentence-final/closing punctuation mark. -/
def atEndClaim : Option Char → Bool
  | none => true
  | some nc => closingPunctClaim.contains nc

/-- Modelled from the specification claim: the claimed retention decision,
with the claim's punctuation category as the drop trigger. -/
def claimKeep (prev : Option Char) (c : Char) (next : Option Char) : Bool :=
  if ¬ kanaToClean.contains c then true
  else if optJa prev || optJa next then true
  else if isProtected prev next then true
  else if atEndClaim next then false
  else true

/-- `claimKeep` applied at index `i` with the original neighbours. -/
def claimKeepAt (dst : List Char) (i : Nat) (c : Char) : Bool :=
  claimKeep (if i = 0 then none else dst.get? (i - 1)) c (dst.get? (i + 1))

/-- Positional filter induced by the claimed retention rule. -/
def claimFilterAux (dst : List Char) : Nat → List Char → List Char
  | _, [] => []
  | i, c :: rest =>
    if claimKeepAt dst i c then c :: claimFilterAux dst (i + 1) rest
    else claimFilterAux dst (i + 1) rest

/-- The whole-string filter described by the claim as frozen. -/
def claimFilter (dst : List Char) : List Char := claimFilterAux dst 0 dst

end KanaFixer

/-! ### Theorems and supporting lemmas -/

namespace KanaFixer

theorem clean_mem_ja : ∀ c ∈ kanaToClean, isJaChar c = true := by decide

theorem contains_clean_ja {c : Char} (h : kanaToClean.contains c = true) :
    isJaChar c = true :=
  clean_mem_ja c (by simpa using h)

theorem keepFun_of_not_clean {p : Option Char} {c : Char} {n : Option Char}
    (h : kanaToClean.contains c = false) : keepFun p c n = true := by
  unfold keepFun
  simp only [h]
  rfl

theorem keepFun_of_prev_ja {p : Option Char} {c : Char} {n : Option Char}
    (h : optJa p = true) : keepFun p c n = true := by
  unfold keepFun
  split
  · simp [h]
  · rfl

theorem keepFun_of_next_ja {p : Option Char} {c : Char} {n : Option Char}
    (h : optJa n = true) : keepFun p c n = true := by
  unfold keepFun
  split
  · simp [h]
  · rfl

theorem keepFun_false_elim {p : Option Char} {c : Char} {n : Option Char}
    (h : keepFun p c n = false) :
    kanaToClean.contains c = true ∧ optJa p = false ∧ optJa n = false := by
  by_cases hc : kanaToClean.contains c = true
  · refine ⟨hc, ?_, ?_⟩
    · cases hpj : optJa p
      · rfl
      · rw [keepFun_of_prev_ja hpj] at h
        exact Bool.noConfusion h
    · cases hnj : optJa n
      · rfl
      · rw [keepFun_of_next_ja hnj] at h
        exact Bool.noConfusion h
  · have hc' : kanaToClean.contains c = false := Bool.not_eq_true _ |>.mp hc
    rw [keepFun_of_not_clean hc'] at h
    exact Bool.noConfusion h

theorem fixWin_head_stable {c : Char} (hc : kanaToClean.contains c = true) :
    ∀ l : List Char, (fixWin (some c) l).head? = l.head?
  | [] => rfl
  | d :: l => by
    have hja : optJa (some c) = true := contains_clean_ja hc
    have : keepFun (some c) d l.head? = true := keepFun_of_prev_ja hja
    simp [fixWin, this]

theorem fixWin_idem_aux :
    ∀ n (l : List Char), l.length ≤ n → ∀ p, fixWin p (fixWin p l) = fixWin p l := by
  intro n
  induction n with
  | zero =>
    intro l hl p
    have : l = [] := List.length_eq_zero.mp (Nat.le_zero.mp hl)
    subst this
    rfl
  | succ n ih =>
    intro l hl p
    cases l with
    | nil => rfl
    | cons c l' =>
      have hl' : l'.length ≤ n := by
        simpa [Nat.succ_le_succ_iff] using hl
      by_cases hk : keepFun p c l'.head? = true
      · have h1 : fixWin p (c :: l') = c :: fixWin (some c) l' := by
          simp [fixWin, hk]
        rw [h1]
        have hk2 : keepFun p c (fixWin (some c) l').head? = true := by
          by_cases hc : kanaToClean.contains c = true
          · rw [fixWin_head_stable hc l']
            exact hk
          · exact keepFun_of_not_clean (Bool.not_eq_true _ |>.mp hc)
        simp only [fixWin, hk2, if_true]
        rw [ih l' hl' (some c)]
      · have hkf : keepFun p c l'.head? = false := Bool.not_eq_true _ |>.mp hk
        have h1 : fixWin p (c :: l') = fixWin (some c) l' := by
          simp [fixWin, hkf]
        rw [h1]
        rcases keepFun_false_elim hkf with ⟨hc, _, hn⟩
        cases l' with
        | nil => rfl
        | cons d l'' =>
          have hdja : isJaChar d = false := by simpa [optJa] using hn
          have hdclean : kanaToClean.contains d = false := by
            by_contra hdc
            have := contains_clean_ja (Bool.not_eq_false _ |>.mp hdc)
            rw [this] at hdja
            cases hdja
          have h2 : fixWin (some c) (d :: l'') = d :: fixWin (some d) l'' := by
            have : keepFun (some c) d l''.head? = true :=
              keepFun_of_prev_ja (contains_clean_ja hc)
            simp [fixWin, this]
          rw [h2]
          have h3 : keepFun p d (fixWin (some d) l'').head? = true :=
            keepFun_of_not_clean hdclean
          simp only [fixWin, h3, if_true]
          have hl'' : l''.length ≤ n := by
            simp only [List.length_cons] at hl'
            omega
          rw [ih l'' hl'' (some d)]

theorem fixAux_eq_fixWin (dst : List Char) :
    ∀ (rest : List Char) (i : Nat), rest = dst.drop i →
      fixAux dst i rest = fixWin (if i = 0 then none else dst.get? (i - 1)) rest := by
  intro rest
  induction rest with
  | nil => intro i _; rfl
  | cons c rest' ihr =>
    intro i hdrop
    have hgi : dst.get? i = some c := by
      have : (dst.drop i).get? 0 = dst.get? (i + 0) := List.get?_drop dst i 0
      rw [← hdrop] at this
      simpa using this.symm
    have hgn : dst.get? (i + 1) = rest'.head? := by
      have : (dst.drop i).get? 1 = dst.get? (i + 1) := List.get?_drop dst i 1
      rw [← hdrop] at this
      have h2 : ((c :: rest').get? 1) = rest'.head? := by
        cases rest' <;> rfl
      rw [h2] at this
      exact this.symm
    have hdrop' : rest' = dst.drop (i + 1) := by
      have : (dst.drop i).tail = dst.drop (i + 1) := List.tail_drop dst i
      rw [← hdrop] at this
      simpa using this
    have hkeq : keepAt dst i c =
        keepFun (if i = 0 then none else dst.get? (i - 1)) c rest'.head? := by
      unfold keepAt
      rw [hgn]
    have hrec := ihr (i + 1) hdrop'
    have hi1 : (if i + 1 = 0 then none else dst.get? (i + 1 - 1)) = some c := by
      simpa using hgi
    rw [hi1] at hrec
    unfold fixAux
    rw [hkeq, hrec]
    rfl

theorem fixWin_of_no_clean :
    ∀ (l : List Char) (p : Option Char),
      (∀ c ∈ l, kanaToClean.contains c = false) → fixWin p l = l
  | [], _, _ => rfl
  | c :: l, p, h => by
    have hc : kanaToClean.contains c = false := h c (List.mem_cons_self c l)
    have : keepFun p c l.head? = true := keepFun_of_not_clean hc
    simp only [fixWin, this, if_true]
    rw [fixWin_of_no_clean l (some c) (fun d hd => h d (List.mem_cons_of_mem c hd))]

theorem fix_eq_fixWin (dst : List Char) : fix dst = fixWin none dst := by
  unfold fix
  by_cases h0 : dst = []
  · subst h0; rfl
  · simp only [h0, if_false]
    by_cases hany : dst.any (fun c => kanaToClean.contains c) = true
    · simp only [hany, not_true, if_false]
      have := fixAux_eq_fixWin dst dst 0 (by simp)
      simpa using this
    · have hall : ∀ c ∈ dst, kanaToClean.contains c = false := by
        intro c hc
        by_contra hcc
        exact hany (List.any_eq_true.mpr ⟨c, hc, Bool.not_eq_false _ |>.mp hcc⟩)
      simp only [hany, not_false_iff, if_true]
      exact (fixWin_of_no_clean dst none hall).symm

theorem specKeep_eq_keepFun (p : Option Char) (c : Char) (n : Option Char) :
    specKeep p c n = keepFun p c n := by
  unfold specKeep keepFun
  by_cases hc : kanaToClean.contains c = true
  · rw [if_neg (by simp only [not_not]; simpa using hc), if_pos hc]
    cases ha : optJa p <;> cases hb : optJa n <;>
      cases h2 : isProtected p n <;> simp [ha, hb, h2]
  · rw [if_pos hc, if_neg hc]

theorem specFilterAux_eq_fixAux (dst : List Char) :
    ∀ (rest : List Char) (i : Nat), specFilterAux dst i rest = fixAux dst i rest
  | [], _ => rfl
  | c :: rest, i => by
    unfold specFilterAux fixAux
    have : specKeepAt dst i c = keepAt dst i c := by
      unfold specKeepAt keepAt
      rw [specKeep_eq_keepFun]
    rw [this, specFilterAux_eq_fixAux dst rest (i + 1)]

theorem fixWin_sublist : ∀ (l : List Char) (p : Option Char), (fixWin p l).Sublist l
  | [], _ => List.Sublist.refl []
  | c :: l, p => by
    unfold fixWin
    by_cases hk : keepFun p c l.head? = true
    · simp only [hk, if_true]
      exact List.Sublist.cons₂ c (fixWin_sublist l (some c))
    · simp only [Bool.not_eq_true _ |>.mp hk, Bool.false_eq_true, if_false]
      exact List.Sublist.cons c (fixWin_sublist l (some c))

theorem fixWin_count_of_not_clean :
    ∀ (l : List Char) (p : Option Char) (c : Char),
      kanaToClean.contains c = false → (fixWin p l).count c = l.count c
  | [], _, _, _ => rfl
  | d :: l, p, c, hc => by
    unfold fixWin
    by_cases hk : keepFun p d l.head? = true
    · simp only [hk, if_true]
      rw [List.count_cons, List.count_cons, fixWin_count_of_not_clean l (some d) c hc]
    · have hkf : keepFun p d l.head? = false := Bool.not_eq_true _ |>.mp hk
      simp only [hkf, Bool.false_eq_true, if_false]
      have hd : kanaToClean.contains d = true := (keepFun_false_elim hkf).1
      have hne : d ≠ c := by
        intro he
        rw [he] at hd
        rw [hd] at hc
        cases hc
      rw [List.count_cons, fixWin_count_of_not_clean l (some d) c hc]
      simp [hne]

end KanaFixer

/-- C3: `KanaFixer.fix` is idempotent: for every string `x`,
`fix (fix x) = fix x`. -/
theorem claim_C3_kana_fix_idempotent (x : List Char) :
    KanaFixer.fix (KanaFixer.fix x) = KanaFixer.fix x := by
  rw [KanaFixer.fix_eq_fixWin, KanaFixer.fix_eq_fixWin]
  exact KanaFixer.fixWin_idem_aux x.length x (Nat.le_refl _) none

/-- Counterexample for C4: the code's drop-trigger set is the literal
string `"。！？，；：”」』）〉》】］]… "`, which ends in an ASCII space, so
a residual glyph followed by a plain space is dropped —
`fix "ok の x" = "ok  x"` — while the claimed rule (drop exactly when
followed by end-of-text or a sentence-final/closing punctuation mark, keep
in all remaining cases) keeps it, a space being neither; the claim as
frozen is therefore false of the program. -/
theorem claim_C4_counterexample :
    KanaFixer.fix (("ok の x").data) ≠
      KanaFixer.claimFilter (("ok の x").data) ∧
    KanaFixer.fix (("ok の x").data) = ("ok  x").data ∧
    KanaFixer.claimFilter (("ok の x").data) = ("ok の x").data := by
  refine ⟨by decide, by decide, by decide⟩

/-- C4 (amended): for every string, `KanaFixer.fix` is the positional
filter that keeps a residual glyph when a neighbour is source-script or
when it is enclosed by a matching pair, drops it exactly when followed by
end-of-text or a character of the code's literal trigger set — the
sentence-final/closing marks plus an ASCII space — and keeps it otherwise;
in particular `fix "ok の。" = "ok 。"` and `fix "「の」" = "「の」"`. -/
theorem claim_C4_kana_retention_rule :
    (∀ x : List Char, KanaFixer.fix x = KanaFixer.specFilter x) ∧
    KanaFixer.fix (("ok の。").data) = ("ok 。").data ∧
    KanaFixer.fix (("「の」").data) = ("「の」").data := by
  refine ⟨?_, by decide, by decide⟩
  intro x
  rw [KanaFixer.fix_eq_fixWin]
  unfold KanaFixer.specFilter
  rw [KanaFixer.specFilterAux_eq_fixAux]
  have h := KanaFixer.fixAux_eq_fixWin x x 0 (by simp)
  simp only [if_pos rfl] at h
  exact h.symm

/-- C10: `KanaFixer.fix x` equals `x` with zero or more glyphs of
`KANA_TO_CLEAN` deleted: it is a subsequence of `x`, the multiplicity of
every character outside the residual set is preserved, and a string with no
residual glyph is returned unchanged. -/
theorem claim_C10_kana_fix_only_deletes (x : List Char) :
    (KanaFixer.fix x).Sublist x ∧
    (∀ c : Char, KanaFixer.kanaToClean.contains c = false →
      (KanaFixer.fix x).count c = x.count c) ∧
    ((∀ c ∈ x, KanaFixer.kanaToClean.contains c = false) →
      KanaFixer.fix x = x) := by
  refine ⟨?_, ?_, ?_⟩
  · rw [KanaFixer.fix_eq_fixWin]
    exact KanaFixer.fixWin_sublist x none
  · intro c hc
    rw [KanaFixer.fix_eq_fixWin]
    exact KanaFixer.fixWin_count_of_not_clean x none c hc
  · intro h
    rw [KanaFixer.fix_eq_fixWin]
    exact KanaFixer.fixWin_of_no_clean x none h

/-- Witness for C10 at the concrete input `"ab"`. -/
theorem claim_C10_kana_fix_only_deletes_witness :
    (KanaFixer.fix (("ab").data)).Sublist (("ab").data) ∧
    (KanaFixer.fix (("ab").data)).count 'z' = (("ab").data).count 'z' ∧
    KanaFixer.fix (("ab").data) = ("ab").data := by
  have h := claim_C10_kana_fix_only_deletes (("ab").data)
  exact ⟨h.1, h.2.1 'z' (by decide), h.2.2 (by decide)⟩

theorem head?_append_nonempty {x y : List Char} (h : x ≠ []) :
    (x ++ y).head? = x.head? := by
  cases x with
  | nil => cases h rfl
  | cons a t => rfl

namespace NumberFixer

theorem isDig_iff {c : Char} : isDig c = true ↔ (48 ≤ c.toNat ∧ c.toNat ≤ 57) := by
  unfold isDig
  simp

theorem isCircled_nat {c : Char} (h : isCircled c = true) : 0x2460 ≤ c.toNat := by
  unfold isCircled at h
  simp only [Bool.or_eq_true, Bool.and_eq_true, decide_eq_true_eq] at h
  omega

theorem circ_not_dig {c : Char} (h : isCircled c = true) : isDig c = false := by
  cases hd : isDig c
  · rfl
  · exfalso
    have h1 := isDig_iff.mp hd
    have h2 := isCircled_nat h
    omega

theorem takeWhile_all_append {p : Char → Bool} {t rest : List Char}
    (ht : ∀ c ∈ t, p c = true) (hr : ∀ c, rest.head? = some c → p c = false) :
    (t ++ rest).takeWhile p = t ∧ (t ++ rest).dropWhile p = rest := by
  induction t with
  | nil =>
    cases rest with
    | nil => exact ⟨rfl, rfl⟩
    | cons c r =>
      have := hr c rfl
      simp [List.takeWhile_cons, List.dropWhile_cons, this]
  | cons a t ih =>
    have ha := ht a (by simp)
    have iht := ih (fun c hc => ht c (by simp [hc]))
    simp [List.takeWhile_cons, List.dropWhile_cons, ha, iht.1, iht.2]

theorem head?_dropWhile {p : Char → Bool} :
    ∀ (l : List Char) (c : Char), (l.dropWhile p).head? = some c → p c = false
  | [], _, h => by cases h
  | a :: t, c, h => by
    by_cases hp : p a = true
    · rw [List.dropWhile_cons, if_pos hp] at h
      exact head?_dropWhile t c h
    · rw [List.dropWhile_cons, if_neg hp] at h
      cases h
      exact Bool.not_eq_true _ |>.mp hp

theorem toksOf_scanN : ∀ l : List Char, toksOf (scanN l) = findAllNums l := by
  intro l
  induction l using scanN.induct with
  | case1 => rw [scanN, findAllNums]; rfl
  | case2 c rest h1 ih =>
    rw [scanN, if_pos h1, findAllNums, if_pos h1]
    simpa [toksOf] using ih
  | case3 c rest h1 h2 ih =>
    rw [scanN, if_neg h1, if_pos h2, findAllNums, if_neg h1, if_pos h2]
    simpa [toksOf] using ih
  | case4 c rest h1 h2 ih =>
    rw [scanN, if_neg h1, if_neg h2, findAllNums, if_neg h1, if_neg h2]
    simpa [toksOf] using ih

theorem renderN_cons (p : NPiece) (ps : List NPiece) :
    renderN (p :: ps) = pieceChars p ++ renderN ps := rfl

theorem renderN_scanN : ∀ l : List Char, renderN (scanN l) = l := by
  intro l
  induction l using scanN.induct with
  | case1 => rw [scanN]; rfl
  | case2 c rest h1 ih =>
    rw [scanN, if_pos h1, renderN_cons, ih]
    simp [pieceChars, List.takeWhile_append_dropWhile]
  | case3 c rest h1 h2 ih =>
    rw [scanN, if_neg h1, if_pos h2, renderN_cons, ih]
    rfl
  | case4 c rest h1 h2 ih =>
    rw [scanN, if_neg h1, if_neg h2, renderN_cons, ih]
    rfl

theorem wfN_scanN : ∀ l : List Char, wfN (scanN l) := by
  intro l
  induction l using scanN.induct with
  | case1 => rw [scanN]; trivial
  | case2 c rest h1 ih =>
    rw [scanN, if_pos h1]
    refine ⟨Or.inr ⟨by simp, ?_⟩, ?_, ih⟩
    · intro d hd
      rcases List.mem_cons.mp hd with h | h
      · rw [h]; exact h1
      · exact List.mem_takeWhile_imp h
    · intro _
      intro d hd
      rw [renderN_scanN] at hd
      exact head?_dropWhile _ d hd
  | case3 c rest h1 h2 ih =>
    rw [scanN, if_neg h1, if_pos h2]
    refine ⟨Or.inl ⟨c, rfl, h2⟩, ?_, ih⟩
    intro hdr
    rcases hdr with ⟨t, ht, _, hall⟩
    have : c ∈ [c] := by simp
    have hcd := hall c (by injection ht with ht'; rw [← ht']; simp)
    rw [circ_not_dig h2] at hcd
    cases hcd
  | case4 c rest h1 h2 ih =>
    rw [scanN, if_neg h1, if_neg h2]
    refine ⟨⟨Bool.not_eq_true _ |>.mp h1, Bool.not_eq_true _ |>.mp h2⟩, ?_, ih⟩
    intro hdr
    rcases hdr with ⟨t, ht, _, _⟩
    cases ht

theorem pieceOk_nonempty {t : List Char} (h : pieceOk (NPiece.tok t)) : t ≠ [] := by
  rcases h with ⟨c, hc, _⟩ | ⟨hne, _⟩
  · rw [hc]; simp
  · exact hne

theorem rescan : ∀ ps : List NPiece, wfN ps → scanN (renderN ps) = ps := by
  intro ps
  induction ps with
  | nil =>
    intro _
    show scanN [] = []
    rw [scanN]
  | cons p ps ih =>
    intro hwf
    rcases hwf with ⟨hok, hadj, hwfr⟩
    cases p with
    | junk c =>
      rcases hok with ⟨hd, hc⟩
      rw [renderN_cons]
      simp only [pieceChars, List.cons_append, List.nil_append]
      rw [scanN, if_neg (by rw [hd]; simp), if_neg (by rw [hc]; simp)]
      rw [ih hwfr]
    | tok t =>
      rcases hok with ⟨c, hc, hcirc⟩ | ⟨hne, hall⟩
      · subst hc
        rw [renderN_cons]
        simp only [pieceChars, List.cons_append, List.nil_append]
        rw [scanN, if_neg (by rw [circ_not_dig hcirc]; simp), if_pos hcirc]
        rw [ih hwfr]
      · cases t with
        | nil => cases hne rfl
        | cons a t' =>
          have ha : isDig a = true := hall a (by simp)
          have hstart : ∀ d, (renderN ps).head? = some d → isDig d = false := by
            intro d hd
            exact hadj ⟨a :: t', rfl, hne, hall⟩ d hd
          have htw := @takeWhile_all_append isDig t' (renderN ps)
            (fun d hd => hall d (by simp [hd])) hstart
          rw [renderN_cons]
          simp only [pieceChars, List.cons_append]
          rw [scanN, if_pos ha, htw.1, htw.2, ih hwfr]

theorem replaceToks_id : ∀ (ps : List NPiece) (j : Nat),
    replaceToks (fun _ t => t) j ps = ps
  | [], _ => rfl
  | NPiece.junk c :: ps, j => by
    rw [replaceToks, replaceToks_id ps j]
  | NPiece.tok t :: ps, j => by
    rw [replaceToks, replaceToks_id ps (j + 1)]

theorem replaceToks_congr {g f : Nat → List Char → List Char}
    (h : ∀ j t, g j t = f j t) :
    ∀ (ps : List NPiece) (j : Nat), replaceToks g j ps = replaceToks f j ps
  | [], _ => rfl
  | NPiece.junk c :: ps, j => by
    rw [replaceToks, replaceToks, replaceToks_congr h ps j]
  | NPiece.tok t :: ps, j => by
    rw [replaceToks, replaceToks, replaceToks_congr h ps (j + 1), h j t]

theorem replaceToks_comp (f1 f2 : Nat → List Char → List Char) :
    ∀ (ps : List NPiece) (j : Nat),
      replaceToks f2 j (replaceToks f1 j ps) =
        replaceToks (fun i t => f2 i (f1 i t)) j ps
  | [], _ => rfl
  | NPiece.junk c :: ps, j => by
    rw [replaceToks, replaceToks, replaceToks, replaceToks_comp f1 f2 ps j]
  | NPiece.tok t :: ps, j => by
    rw [replaceToks, replaceToks, replaceToks, replaceToks_comp f1 f2 ps (j + 1)]

theorem replaceToks_wf {f : Nat → List Char → List Char}
    (hf : ∀ j t, f j t = t ∨ ∃ c, f j t = [c] ∧ isCircled c = true) :
    ∀ (ps : List NPiece) (j : Nat), wfN ps →
      wfN (replaceToks f j ps) ∧
        (notDigStart ps → notDigStart (replaceToks f j ps))
  | [], j, _ => ⟨trivial, fun h => h⟩
  | NPiece.junk c :: ps, j, hwf => by
    rcases hwf with ⟨hok, _, hwfr⟩
    have ihr := replaceToks_wf hf ps j hwfr
    constructor
    · rw [replaceToks]
      refine ⟨hok, ?_, ihr.1⟩
      intro hdr
      rcases hdr with ⟨t, ht, _, _⟩
      cases ht
    · intro hnd
      rw [replaceToks]
      intro d hd
      rw [renderN_cons] at hd
      simp only [pieceChars, List.cons_append, List.nil_append, List.head?_cons] at hd
      apply hnd d
      rw [renderN_cons]
      simp only [pieceChars, List.cons_append, List.nil_append, List.head?_cons]
      exact hd
  | NPiece.tok t :: ps, j, hwf => by
    rcases hwf with ⟨hok, hadj, hwfr⟩
    have ihr := replaceToks_wf hf ps (j + 1) hwfr
    have hnew : pieceOk (NPiece.tok (f j t)) := by
      rcases hf j t with he | ⟨c, he, hc⟩
      · rw [he]; exact hok
      · rw [he]; exact Or.inl ⟨c, rfl, hc⟩
    constructor
    · rw [replaceToks]
      refine ⟨hnew, ?_, ihr.1⟩
      intro hdr
      rcases hf j t with he | ⟨c, he, hc⟩
      · rw [he] at hdr
        exact ihr.2 (hadj hdr)
      · rcases hdr with ⟨u, hu, _, hall⟩
        rw [he] at hu
        injection hu with hu'
        have := hall c (by rw [← hu']; simp)
        rw [circ_not_dig hc] at this
        cases this
    · intro hnd
      rw [replaceToks]
      intro d hd
      rw [renderN_cons] at hd
      simp only [pieceChars] at hd
      rcases hf j t with he | ⟨c, he, hc⟩
      · rw [he] at hd
        have ht : t ≠ [] := pieceOk_nonempty hok
        rw [head?_append_nonempty ht] at hd
        apply hnd d
        rw [renderN_cons]
        simp only [pieceChars]
        rw [head?_append_nonempty ht]
        exact hd
      · rw [he] at hd
        simp only [List.cons_append, List.nil_append, List.head?_cons] at hd
        injection hd with hd'
        rw [← hd']
        exact circ_not_dig hc

theorem findAllNums_shape :
    ∀ (l : List Char), ∀ t ∈ findAllNums l,
      (∃ c, t = [c] ∧ isCircled c = true) ∨ (t ≠ [] ∧ ∀ c ∈ t, isDig c = true) := by
  intro l
  induction l using findAllNums.induct with
  | case1 => intro t ht; rw [findAllNums] at ht; cases ht
  | case2 c rest h1 ih =>
    intro t ht
    rw [findAllNums, if_pos h1] at ht
    rcases List.mem_cons.mp ht with h | h
    · refine Or.inr ⟨by rw [h]; simp, ?_⟩
      intro d hd
      rw [h] at hd
      rcases List.mem_cons.mp hd with h' | h'
      · rw [h']; exact h1
      · exact List.mem_takeWhile_imp h'
    · exact ih t h
  | case3 c rest h1 h2 ih =>
    intro t ht
    rw [findAllNums, if_neg h1, if_pos h2] at ht
    rcases List.mem_cons.mp ht with h | h
    · exact Or.inl ⟨c, h, h2⟩
    · exact ih t h
  | case4 c rest h1 h2 ih =>
    intro t ht
    rw [findAllNums, if_neg h1, if_neg h2] at ht
    exact ih t ht

theorem matchCircled_single {l : List Char} {t : List Char}
    (ht : t ∈ findAllNums l) (hm : matchCircled t = true) :
    ∃ c, t = [c] ∧ isCircled c = true := by
  rcases findAllNums_shape l t ht with h | ⟨hne, hall⟩
  · exact h
  · exfalso
    cases t with
    | nil => exact hne rfl
    | cons a t' =>
      have := hall a (by simp)
      rw [matchCircled] at hm
      rw [circ_not_dig hm] at this
      cases this

theorem fbAux_renders (tI : Nat) (s : List Char) :
    ∀ (l : List Char) (j : Nat),
      fbAux tI s j l =
        renderN (replaceToks (fun i t => if i = tI then s else t) j (scanN l)) := by
  intro l
  induction l using scanN.induct with
  | case1 => intro j; rw [fbAux, scanN]; rfl
  | case2 c rest h1 ih =>
    intro j
    rw [scanN, if_pos h1, fbAux, if_pos h1, replaceToks, renderN_cons, ih (j + 1)]
    rfl
  | case3 c rest h1 h2 ih =>
    intro j
    rw [scanN, if_neg h1, if_pos h2, fbAux, if_neg h1, if_pos h2, replaceToks,
      renderN_cons, ih (j + 1)]
    rfl
  | case4 c rest h1 h2 ih =>
    intro j
    rw [scanN, if_neg h1, if_neg h2, fbAux, if_neg h1, if_neg h2, replaceToks,
      renderN_cons, ih j]
    rfl

end NumberFixer

namespace NumberFixer

theorem getD_mem {l : List (List Char)} {j : Nat} (h : j < l.length) :
    l.getD j [] ∈ l := by
  rw [List.getD_eq_getElem?_getD, List.getElem?_eq_getElem h]
  simp

theorem loop_collapse (srcNums dstNums : List (List Char)) (dst : List Char)
    (hsrc : ∀ j, j < srcNums.length → matchCircled (srcNums.getD j []) = true →
      ∃ c, srcNums.getD j [] = [c] ∧ isCircled c = true) :
    ∀ k, k ≤ min srcNums.length dstNums.length →
      (List.range k).foldl
        (fun d i =>
          if matchCircled (srcNums.getD i []) && decide (safeInt (dstNums.getD i []) > 0)
          then fixByIndex d i (srcNums.getD i []) else d) dst
      = renderN (replaceToks
          (fun j t =>
            if j < k ∧
                (matchCircled (srcNums.getD j []) &&
                  decide (safeInt (dstNums.getD j []) > 0)) = true
            then srcNums.getD j [] else t) 0 (scanN dst)) := by
  intro k
  induction k with
  | zero =>
    intro _
    rw [List.range_zero, List.foldl_nil]
    rw [replaceToks_congr (f := fun _ t => t) (fun j t => by simp)]
    rw [replaceToks_id, renderN_scanN]
  | succ k ih =>
    intro hk1
    have hk : k ≤ min srcNums.length dstNums.length := Nat.le_of_succ_le hk1
    rw [List.range_succ, List.foldl_append, List.foldl_cons, List.foldl_nil, ih hk]
    by_cases hc : (matchCircled (srcNums.getD k []) &&
        decide (safeInt (dstNums.getD k []) > 0)) = true
    · rw [if_pos hc]
      unfold fixByIndex
      rw [fbAux_renders]
      have hf : ∀ j t,
          (fun j t =>
            if j < k ∧
                (matchCircled (srcNums.getD j []) &&
                  decide (safeInt (dstNums.getD j []) > 0)) = true
            then srcNums.getD j [] else t) j t = t ∨
          ∃ c, (fun j t =>
            if j < k ∧
                (matchCircled (srcNums.getD j []) &&
                  decide (safeInt (dstNums.getD j []) > 0)) = true
            then srcNums.getD j [] else t) j t = [c] ∧ isCircled c = true := by
        intro j t
        dsimp only
        by_cases hcnd : j < k ∧
            (matchCircled (srcNums.getD j []) &&
              decide (safeInt (dstNums.getD j []) > 0)) = true
        · rw [if_pos hcnd]
          have hm : matchCircled (srcNums.getD j []) = true := by
            have h2 := hcnd.2
            simp only [Bool.and_eq_true] at h2
            exact h2.1
          have hjlt : j < srcNums.length := by
            have := Nat.min_le_left srcNums.length dstNums.length
            omega
          rcases hsrc j hjlt hm with ⟨c, hcv, hcirc⟩
          exact Or.inr ⟨c, hcv, hcirc⟩
        · rw [if_neg hcnd]
          exact Or.inl rfl
      have hwf := (replaceToks_wf hf (scanN dst) 0 (wfN_scanN dst)).1
      rw [rescan _ hwf, replaceToks_comp]
      apply congrArg
      apply replaceToks_congr
      intro j t
      dsimp only
      by_cases hjk : j = k
      · subst hjk
        rw [if_pos rfl, if_pos ⟨Nat.lt_succ_self j, hc⟩]
      · rw [if_neg hjk]
        by_cases hcnd : j < k ∧
            (matchCircled (srcNums.getD j []) &&
              decide (safeInt (dstNums.getD j []) > 0)) = true
        · rw [if_pos hcnd, if_pos ⟨Nat.lt_succ_of_lt hcnd.1, hcnd.2⟩]
        · rw [if_neg hcnd, if_neg (fun hx => hcnd ⟨by omega, hx.2⟩)]
    · rw [if_neg hc]
      apply congrArg
      apply replaceToks_congr
      intro j t
      by_cases hcnd : j < k ∧
          (matchCircled (srcNums.getD j []) &&
            decide (safeInt (dstNums.getD j []) > 0)) = true
      · rw [if_pos hcnd, if_pos ⟨Nat.lt_succ_of_lt hcnd.1, hcnd.2⟩]
      · by_cases hcnd2 : j < k + 1 ∧
            (matchCircled (srcNums.getD j []) &&
              decide (safeInt (dstNums.getD j []) > 0)) = true
        · exfalso
          have hj : j = k := by
            rcases hcnd2 with ⟨h1, h2⟩
            by_cases hjk : j < k
            · exact absurd ⟨hjk, h2⟩ hcnd
            · omega
          rw [hj] at hcnd2
          exact hc hcnd2.2
        · rw [if_neg hcnd, if_neg hcnd2]

end NumberFixer

/-- C5: `NumberFixer.fix` returns the translated text unchanged when the
source has no circled glyph; otherwise it equals the one-pass positional
substitution: both texts are tokenized into digit-run/circled-glyph streams
and, below the shorter stream length, the i-th translated token is replaced
(by token position) by the i-th source token exactly when that source token
is a circled glyph and the translated token is a digit run with positive
value; later tokens are untouched.  In particular
`fix "before ①, then ②" "before 1, then 2" = "before ①, then ②"`. -/
theorem claim_C5_circled_number_restorer :
    (∀ src dst : List Char, src.any NumberFixer.isCircled = false →
      NumberFixer.fix src dst = dst) ∧
    (∀ src dst : List Char, NumberFixer.fix src dst = NumberFixer.onePass src dst) ∧
    NumberFixer.fix (("before ①, then ②").data) (("before 1, then 2").data) =
      ("before ①, then ②").data := by
  have hfast : ∀ src dst : List Char, src.any NumberFixer.isCircled = false →
      NumberFixer.fix src dst = dst := by
    intro src dst h
    unfold NumberFixer.fix
    rw [if_pos (by rw [h]; simp)]
  refine ⟨hfast, ?_, ?_⟩
  case refine_2 =>
    simp [NumberFixer.fix, NumberFixer.findAllNums, NumberFixer.fixByIndex,
      NumberFixer.fbAux, NumberFixer.matchCircled, NumberFixer.safeInt,
      NumberFixer.decVal, NumberFixer.isCircled, isDig,
      List.range_succ, List.range_zero]
  case refine_1 =>
  intro src dst
  by_cases hs : src.any NumberFixer.isCircled = true
  · unfold NumberFixer.fix NumberFixer.onePass
    rw [if_neg (not_not_intro hs), if_neg (not_not_intro hs)]
    exact NumberFixer.loop_collapse (NumberFixer.findAllNums src)
      (NumberFixer.findAllNums dst) dst
      (fun j hj hm => NumberFixer.matchCircled_single (NumberFixer.getD_mem hj) hm)
      (min (NumberFixer.findAllNums src).length
        (NumberFixer.findAllNums dst).length) (Nat.le_refl _)
  · have hs' : src.any NumberFixer.isCircled = false := Bool.not_eq_true _ |>.mp hs
    rw [hfast src dst hs']
    unfold NumberFixer.onePass
    rw [if_pos (by rw [hs']; simp)]

/-- Witness for C5: a source without circled glyphs leaves the translation
unchanged. -/
theorem claim_C5_circled_number_restorer_witness :
    NumberFixer.fix (("abc").data) (("x 1 y").data) = ("x 1 y").data :=
  claim_C5_circled_number_restorer.1 (("abc").data) (("x 1 y").data) (by decide)

namespace AssDocument

theorem blocksFrom_length : ∀ (ds : List DInfo) (idx : Nat),
    (blocksFrom idx ds).length = ds.length
  | [], _ => rfl
  | _ :: ds, idx => by
    rw [blocksFrom, List.length_cons, List.length_cons, blocksFrom_length ds (idx + 1)]

theorem loadAux_spec :
    ∀ (lines : List (List Char)) (iE : Bool) (idx : Nat),
      (loadAux iE idx lines).templates = (parseDs iE lines).map prefixOf ∧
      (loadAux iE idx lines).items = blocksFrom idx (parseDs iE lines) ∧
      (loadAux iE idx lines).headers = headerLinesOf iE lines := by
  intro lines
  induction lines with
  | nil => intro iE idx; exact ⟨rfl, rfl, rfl⟩
  | cons line rest ih =>
    intro iE idx
    simp only [loadAux, parseDs, headerLinesOf]
    by_cases h1 : bomStrip (pyStrip line) = []
    · simp only [if_pos h1]
      exact ⟨(ih iE idx).1, (ih iE idx).2.1, by rw [(ih iE idx).2.2]⟩
    · simp only [if_neg h1]
      by_cases h2 : (("[Events]").data).isPrefixOf (bomStrip (pyStrip line)) = true
      · simp only [if_pos h2]
        exact ⟨(ih true idx).1, (ih true idx).2.1, by rw [(ih true idx).2.2]⟩
      · simp only [if_neg h2]
        by_cases h3 : iE = true
        · simp only [if_pos h3]
          by_cases h4 : (("Format:").data).isPrefixOf (bomStrip (pyStrip line)) = true
          · simp only [if_pos h4]
            exact ⟨(ih iE idx).1, (ih iE idx).2.1, by rw [(ih iE idx).2.2]⟩
          · simp only [if_neg h4]
            by_cases h5 :
                (("Dialogue:").data).isPrefixOf (bomStrip (pyStrip line)) = true
            · simp only [if_pos h5]
              by_cases h6 : (pySplitCharMax ',' 9 (bomStrip (pyStrip line))).length < 10
              · simp only [if_pos h6]
                exact ⟨(ih iE idx).1, (ih iE idx).2.1, by rw [(ih iE idx).2.2]⟩
              · simp only [if_neg h6]
                refine ⟨?_, ?_, ?_⟩
                · rw [List.map_cons, (ih iE (idx + 1)).1]
                  rfl
                · rw [blocksFrom, (ih iE (idx + 1)).2.1]
                  rfl
                · rw [(ih iE (idx + 1)).2.2]
            · simp only [if_neg h5]
              exact ⟨(ih iE idx).1, (ih iE idx).2.1, by rw [(ih iE idx).2.2]⟩
        · simp only [if_neg h3]
          exact ⟨(ih iE idx).1, (ih iE idx).2.1, by rw [(ih iE idx).2.2]⟩

end AssDocument

/-- C9: `load` produces template and translation-block lists of equal
length, one of each per parsed Dialogue line. -/
theorem claim_C9_extraction_one_to_one (lines : List (List Char)) :
    (AssDocument.load lines).templates.length = (AssDocument.load lines).items.length ∧
    (AssDocument.load lines).templates.length =
      (AssDocument.parseDs false lines).length := by
  have h := AssDocument.loadAux_spec lines false 1
  unfold AssDocument.load
  rw [h.1, h.2.1, List.length_map, AssDocument.blocksFrom_length]
  exact ⟨rfl, rfl⟩

namespace AssDocument

theorem bindCleanup_nil : bindCleanup [] = [] := rfl

theorem saveEventLines_getD {templates units : List (List Char)} {i : Nat}
    (hi : i < templates.length) :
    (saveEventLines templates units).getD i [] =
      templates.getD i [] ++ bindCleanup (units.getD i []) := by
  unfold saveEventLines
  rw [List.getD_eq_getElem?_getD, List.getElem?_map, List.getElem?_range hi]
  rfl

end AssDocument

/-- C1: `save` emits exactly one event line per stored template: the output
list length always equals the template count; a position with no recovered
unit left is bound to the empty string (the line is the bare template);
units beyond the template count are discarded (the output only depends on
the first `len(Template)` units); and the count mismatch is reported as a
non-fatal flag. -/
theorem claim_C1_one_bound_unit_per_template (doc : AssDocument.LoadOut)
    (blocks : List (List Char)) :
    ((AssDocument.save doc blocks).eventLines).length = doc.templates.length ∧
    (∀ i, i < doc.templates.length →
      (AssDocument.translatedUnits
        (AssDocument.normalizeStream (AssDocument.buildStream blocks))).length ≤ i →
      ((AssDocument.save doc blocks).eventLines).getD i [] = doc.templates.getD i []) ∧
    (∀ units : List (List Char),
      AssDocument.saveEventLines doc.templates units =
        AssDocument.saveEventLines doc.templates (units.take doc.templates.length)) ∧
    ((AssDocument.save doc blocks).mismatch = true ↔
      (AssDocument.translatedUnits
        (AssDocument.normalizeStream (AssDocument.buildStream blocks))).length ≠
        doc.templates.length) := by
  refine ⟨?_, ?_, ?_, ?_⟩
  · simp [AssDocument.save, AssDocument.saveEventLines]
  · intro i hi hu
    show (AssDocument.saveEventLines doc.templates _).getD i [] = _
    rw [AssDocument.saveEventLines_getD hi, List.getD_eq_default _ _ hu,
      AssDocument.bindCleanup_nil, List.append_nil]
  · intro units
    unfold AssDocument.saveEventLines
    apply List.map_congr_left
    intro i hi
    have hilt : i < doc.templates.length := List.mem_range.mp hi
    rw [List.getD_eq_getElem?_getD units, List.getD_eq_getElem?_getD (units.take _),
      List.getElem?_take, if_pos hilt]
  · simp [AssDocument.save]

/-- Witness for C1: two templates, no blocks: two bare template lines. -/
theorem claim_C1_one_bound_unit_per_template_witness :
    ((AssDocument.save ⟨[], [("a,").data, ("b,").data], []⟩ []).eventLines).length = 2 ∧
    ((AssDocument.save ⟨[], [("a,").data, ("b,").data], []⟩ []).eventLines).getD 0 [] =
      ("a,").data := by
  have h := claim_C1_one_bound_unit_per_template ⟨[], [("a,").data, ("b,").data], []⟩ []
  exact ⟨h.1, h.2.1 0 (by decide) (by decide)⟩

theorem consHead_ne_nil (c : Char) (ps : List (List Char)) :
    consHead c ps ≠ [] := by
  cases ps <;> simp [consHead]

theorem splitNN_ne_nil : ∀ l : List Char, splitNN l ≠ [] := by
  intro l
  induction l using splitNN.induct with
  | case1 => simp [splitNN]
  | case2 c => simp [splitNN]
  | case3 c1 c2 t h ih =>
    rw [splitNN, if_pos h]
    simp
  | case4 c1 c2 t h ih =>
    rw [splitNN, if_neg h]
    exact consHead_ne_nil c1 (splitNN (c2 :: t))

theorem consHead_mem {ps : List (List Char)} {p : List Char} {x : Char}
    (hp : p ∈ ps) (hx : x ∈ p) (c : Char) : ∃ q ∈ consHead c ps, x ∈ q := by
  cases ps with
  | nil => cases hp
  | cons p0 rest =>
    rcases List.mem_cons.mp hp with h | h
    · exact ⟨c :: p0, by simp [consHead], by rw [h] at hx; exact List.mem_cons_of_mem c hx⟩
    · exact ⟨p, by simp [consHead, h], hx⟩

theorem consHead_self_mem (c : Char) (ps : List (List Char)) :
    ∃ q ∈ consHead c ps, c ∈ q := by
  cases ps with
  | nil => exact ⟨[c], by simp [consHead]⟩
  | cons p0 rest => exact ⟨c :: p0, by simp [consHead]⟩

theorem splitNN_mem : ∀ (l : List Char) (c : Char), c ∈ l →
    (∃ p ∈ splitNN l, c ∈ p) ∨ c = '\n' := by
  intro l
  induction l using splitNN.induct with
  | case1 => intro c hc; cases hc
  | case2 d =>
    intro c hc
    rcases List.mem_singleton.mp hc with h
    exact Or.inl ⟨[d], by simp [splitNN], by simp [h]⟩
  | case3 c1 c2 t hnn ih =>
    intro c hc
    rw [splitNN, if_pos hnn]
    rcases List.mem_cons.mp hc with h | hc2
    · exact Or.inr (by rw [h, hnn.1])
    rcases List.mem_cons.mp hc2 with h | hc3
    · exact Or.inr (by rw [h, hnn.2])
    rcases ih c hc3 with ⟨p, hp, hcp⟩ | h
    · exact Or.inl ⟨p, List.mem_cons_of_mem _ hp, hcp⟩
    · exact Or.inr h
  | case4 c1 c2 t hnn ih =>
    intro c hc
    rw [splitNN, if_neg hnn]
    rcases List.mem_cons.mp hc with hca | hct
    · subst hca
      exact Or.inl (consHead_self_mem c (splitNN (c2 :: t)))
    · rcases ih c hct with ⟨p, hp, hcp⟩ | hnl
      · rcases consHead_mem hp hcp c1 with ⟨q, hq, hxq⟩
        exact Or.inl ⟨q, hq, hxq⟩
      · exact Or.inr hnl

theorem pyStrip_ne_nil {l : List Char} {c : Char} (hc : c ∈ l)
    (hw : isPySpace c = false) : pyStrip l ≠ [] := by
  intro hnil
  unfold pyStrip at hnil
  have h1 : (l.dropWhile isPySpace).reverse.dropWhile isPySpace = [] :=
    List.reverse_eq_nil_iff.mp hnil
  have h2 := List.dropWhile_eq_nil_iff.mp h1
  have h3 : c ∈ l.dropWhile isPySpace := by
    have hsplit := List.takeWhile_append_dropWhile (p := isPySpace) (l := l)
    rw [← hsplit] at hc
    rcases List.mem_append.mp hc with h | h
    · have := List.mem_takeWhile_imp h
      rw [hw] at this
      cases this
    · exact h
  have := h2 c (List.mem_reverse.mpr h3)
  rw [hw] at this
  cases this

theorem filter_ne_nil_of_mem {p : List Char → Bool} {x : List Char}
    {l : List (List Char)} (hx : x ∈ l) (hp : p x = true) : l.filter p ≠ [] := by
  intro h
  have := List.mem_filter.mpr ⟨hx, hp⟩
  rw [h] at this
  cases this

/-- C6: when the header pattern matches nowhere in the combined stream
(the split yields a single segment) but the stream has non-whitespace
content, the blank-line fallback yields a non-empty unit sequence. -/
theorem claim_C6_blank_line_fallback (fs : List Char)
    (hm : (AssDocument.headerSegments fs).length = 1)
    (c : Char) (hc : c ∈ fs) (hw : isPySpace c = false) :
    AssDocument.translatedUnits fs ≠ [] := by
  unfold AssDocument.translatedUnits
  rw [hm, if_neg (by omega)]
  rcases splitNN_mem fs c hc with ⟨p, hp, hcp⟩ | h
  · refine filter_ne_nil_of_mem (List.mem_map_of_mem pyStrip hp) ?_
    have := pyStrip_ne_nil hcp hw
    simp [List.isEmpty_iff, this]
  · rw [h] at hw
    cases hw

/-- Witness for C6 at the headerless stream `"hello"`. -/
theorem claim_C6_blank_line_fallback_witness :
    AssDocument.translatedUnits (("hello").data) ≠ [] :=
  claim_C6_blank_line_fallback (("hello").data) (by decide) 'h' (by decide) (by decide)

namespace AssDocument

theorem contains_false_of_ne {c d : Char} (h : c ≠ d) : [d].contains c = false := by
  cases hb : ([d].contains c)
  · rfl
  · exfalso
    rcases (List.contains_iff_exists_mem_beq).mp hb with ⟨x, hx, hbeq⟩
    have hx1 : x = d := List.mem_singleton.mp hx
    exact h (by rw [eq_of_beq hbeq, hx1])

theorem contains_pair_false_of_ne {c d e : Char} (h1 : c ≠ d) (h2 : c ≠ e) :
    (d :: [e]).contains c = false := by
  cases hb : ((d :: [e]).contains c)
  · rfl
  · exfalso
    rcases (List.contains_iff_exists_mem_beq).mp hb with ⟨x, hx, hbeq⟩
    have hce : c = x := eq_of_beq hbeq
    rcases List.mem_cons.mp hx with h | h
    · exact h1 (by rw [hce, h])
    · exact h2 (by rw [hce, List.mem_singleton.mp h])

theorem ttc_append :
    ∀ (a : List Char) {closers rest : List Char} {cl : Char},
      (∀ c ∈ a, closers.contains c = false ∧ c ≠ '\n') →
      closers.contains cl = true →
      takeThroughCloser closers (a ++ cl :: rest) = some rest
  | [], closers, rest, cl, _, hcl => by
    simp only [List.nil_append, takeThroughCloser]
    rw [if_pos hcl]
  | c :: a, closers, rest, cl, ha, hcl => by
    have h1 := ha c (by simp)
    simp only [List.cons_append, takeThroughCloser]
    rw [if_neg (by rw [h1.1]; simp), if_neg h1.2]
    exact ttc_append a (fun d hd => ha d (List.mem_cons_of_mem c hd)) hcl

theorem stripBracketOnce_tag {a rest : List Char} (ha : ']' ∉ a) (hn : '\n' ∉ a) :
    stripBracketOnce ('[' :: (a ++ ']' :: rest)) = rest := by
  simp only [stripBracketOnce]
  rw [if_pos trivial]
  rw [ttc_append a
    (fun c hc => ⟨contains_false_of_ne (fun he => ha (by rw [← he]; exact hc)),
                  fun he => hn (by rw [← he]; exact hc)⟩)
    (by simp)]

theorem stripBracketOnce_tag_fw {a rest : List Char} (ha : '】' ∉ a) (hn : '\n' ∉ a) :
    stripBracketOnce ('【' :: (a ++ '】' :: rest)) = rest := by
  simp only [stripBracketOnce]
  rw [if_neg (by decide), if_pos trivial]
  rw [ttc_append a
    (fun c hc => ⟨contains_false_of_ne (fun he => ha (by rw [← he]; exact hc)),
                  fun he => hn (by rw [← he]; exact hc)⟩)
    (by simp)]

theorem stripParenOnce_tag {b rest : List Char}
    (hb1 : ')' ∉ b) (hb2 : '）' ∉ b) (hn : '\n' ∉ b) :
    stripParenOnce ('(' :: (b ++ ')' :: rest)) = rest := by
  simp only [stripParenOnce]
  rw [if_pos (Or.inl trivial)]
  rw [ttc_append b
    (fun c hc => ⟨contains_pair_false_of_ne (fun he => hb1 (by rw [← he]; exact hc))
                    (fun he => hb2 (by rw [← he]; exact hc)),
                  fun he => hn (by rw [← he]; exact hc)⟩)
    (by simp)]

theorem stripParenOnce_tag_fw {b rest : List Char}
    (hb1 : ')' ∉ b) (hb2 : '）' ∉ b) (hn : '\n' ∉ b) :
    stripParenOnce ('（' :: (b ++ '）' :: rest)) = rest := by
  simp only [stripParenOnce]
  rw [if_pos (Or.inr trivial)]
  rw [ttc_append b
    (fun c hc => ⟨contains_pair_false_of_ne (fun he => hb1 (by rw [← he]; exact hc))
                    (fun he => hb2 (by rw [← he]; exact hc)),
                  fun he => hn (by rw [← he]; exact hc)⟩)
    (by simp)]

end AssDocument

/-- Counterexample for C7: for a paren-then-bracket hint order the binding
strip of the code removes only the paren tag, not the bracket tag, while
the claimed either-order rule would remove both. -/
theorem claim_C7_counterexample :
    AssDocument.stripCtx (("（s）[a] x").data) ≠
      AssDocument.stripHintSpec (("（s）[a] x").data) ∧
    AssDocument.stripCtx (("（s）[a] x").data) = ("[a] x").data ∧
    AssDocument.stripHintSpec (("（s）[a] x").data) = ("x").data := by
  refine ⟨?_, by decide, by decide⟩
  decide

/-- C7 (amended): the binding strips one leading bracket tag if present
(`[tag]` or full-width `【tag】`), then one leading paren tag if present
(`(tag)` or full-width `（tag）`) — bracket-then-paren order only — then
leading whitespace; with a paren-then-bracket order (either width) only
the paren tag is removed and the bracket tag survives. -/
theorem claim_C7_hint_stripping_amended (a b rest : List Char)
    (ha1 : ']' ∉ a) (ha2 : '】' ∉ a) (ha3 : '\n' ∉ a)
    (hb1 : ')' ∉ b) (hb2 : '）' ∉ b) (hb3 : '\n' ∉ b) :
    AssDocument.stripCtx ('[' :: (a ++ ']' :: ('(' :: (b ++ ')' :: rest)))) =
      rest.dropWhile isPySpace ∧
    AssDocument.stripCtx ('[' :: (a ++ ']' :: ('（' :: (b ++ '）' :: rest)))) =
      rest.dropWhile isPySpace ∧
    AssDocument.stripCtx ('【' :: (a ++ '】' :: ('(' :: (b ++ ')' :: rest)))) =
      rest.dropWhile isPySpace ∧
    AssDocument.stripCtx ('【' :: (a ++ '】' :: ('（' :: (b ++ '）' :: rest)))) =
      rest.dropWhile isPySpace ∧
    AssDocument.stripCtx ('[' :: (a ++ ']' :: rest)) =
      (AssDocument.stripParenOnce rest).dropWhile isPySpace ∧
    AssDocument.stripCtx ('【' :: (a ++ '】' :: rest)) =
      (AssDocument.stripParenOnce rest).dropWhile isPySpace ∧
    AssDocument.stripCtx ('(' :: (b ++ ')' :: rest)) = rest.dropWhile isPySpace ∧
    AssDocument.stripCtx ('（' :: (b ++ '）' :: rest)) = rest.dropWhile isPySpace ∧
    AssDocument.stripCtx ('(' :: (b ++ ')' :: ('[' :: rest))) = '[' :: rest ∧
    AssDocument.stripCtx ('（' :: (b ++ '）' :: ('【' :: rest))) = '【' :: rest := by
  refine ⟨?_, ?_, ?_, ?_, ?_, ?_, ?_, ?_, ?_, ?_⟩
  · unfold AssDocument.stripCtx
    rw [AssDocument.stripBracketOnce_tag ha1 ha3,
      AssDocument.stripParenOnce_tag hb1 hb2 hb3]
  · unfold AssDocument.stripCtx
    rw [AssDocument.stripBracketOnce_tag ha1 ha3,
      AssDocument.stripParenOnce_tag_fw hb1 hb2 hb3]
  · unfold AssDocument.stripCtx
    rw [AssDocument.stripBracketOnce_tag_fw ha2 ha3,
      AssDocument.stripParenOnce_tag hb1 hb2 hb3]
  · unfold AssDocument.stripCtx
    rw [AssDocument.stripBracketOnce_tag_fw ha2 ha3,
      AssDocument.stripParenOnce_tag_fw hb1 hb2 hb3]
  · unfold AssDocument.stripCtx
    rw [AssDocument.stripBracketOnce_tag ha1 ha3]
  · unfold AssDocument.stripCtx
    rw [AssDocument.stripBracketOnce_tag_fw ha2 ha3]
  · unfold AssDocument.stripCtx
    have hbr : AssDocument.stripBracketOnce ('(' :: (b ++ ')' :: rest)) =
        '(' :: (b ++ ')' :: rest) := rfl
    rw [hbr, AssDocument.stripParenOnce_tag hb1 hb2 hb3]
  · unfold AssDocument.stripCtx
    have hbr : AssDocument.stripBracketOnce ('（' :: (b ++ '）' :: rest)) =
        '（' :: (b ++ '）' :: rest) := rfl
    rw [hbr, AssDocument.stripParenOnce_tag_fw hb1 hb2 hb3]
  · unfold AssDocument.stripCtx
    have hbr : AssDocument.stripBracketOnce ('(' :: (b ++ ')' :: ('[' :: rest))) =
        '(' :: (b ++ ')' :: ('[' :: rest)) := rfl
    rw [hbr, AssDocument.stripParenOnce_tag hb1 hb2 hb3]
    rw [List.dropWhile_cons, if_neg (by simp [isPySpace])]
  · unfold AssDocument.stripCtx
    have hbr : AssDocument.stripBracketOnce ('（' :: (b ++ '）' :: ('【' :: rest))) =
        '（' :: (b ++ '）' :: ('【' :: rest)) := rfl
    rw [hbr, AssDocument.stripParenOnce_tag_fw hb1 hb2 hb3]
    rw [List.dropWhile_cons, if_neg (by decide)]

/-- Witness for C7 (amended) at a concrete full-width bracket-then-paren
hint. -/
theorem claim_C7_hint_stripping_amended_witness :
    AssDocument.stripCtx ('【' :: ((("n").data) ++ '】' ::
      ('（' :: ((("s").data) ++ '）' :: ((" hi").data))))) =
      ((" hi").data).dropWhile isPySpace :=
  (claim_C7_hint_stripping_amended (("n").data) (("s").data) ((" hi").data)
    (by decide) (by decide) (by decide) (by decide) (by decide)
    (by decide)).2.2.2.1

namespace AssDocument

theorem headerLinesOf_sublist :
    ∀ (lines : List (List Char)) (iE : Bool),
      (headerLinesOf iE lines).Sublist (lines.map (fun l => bomStrip (pyStrip l))) := by
  intro lines
  induction lines with
  | nil => intro iE; exact List.Sublist.refl _
  | cons line rest ih =>
    intro iE
    rw [List.map_cons]
    simp only [headerLinesOf]
    by_cases h1 : bomStrip (pyStrip line) = []
    · rw [if_pos h1]
      exact List.Sublist.cons₂ _ (ih iE)
    · rw [if_neg h1]
      by_cases h2 : (("[Events]").data).isPrefixOf (bomStrip (pyStrip line)) = true
      · rw [if_pos h2]
        exact List.Sublist.cons₂ _ (ih true)
      · rw [if_neg h2]
        by_cases h3 : iE = true
        · rw [if_pos h3]
          by_cases h4 : (("Format:").data).isPrefixOf (bomStrip (pyStrip line)) = true
          · rw [if_pos h4]
            exact List.Sublist.cons₂ _ (ih iE)
          · rw [if_neg h4]
            by_cases h5 :
                (("Dialogue:").data).isPrefixOf (bomStrip (pyStrip line)) = true
            · rw [if_pos h5]
              by_cases h6 : (pySplitCharMax ',' 9 (bomStrip (pyStrip line))).length < 10
              · rw [if_pos h6]
                exact List.Sublist.cons₂ _ (ih iE)
              · rw [if_neg h6]
                exact List.Sublist.cons _ (ih iE)
            · rw [if_neg h5]
              exact List.Sublist.cons₂ _ (ih iE)
        · rw [if_neg h3]
          exact List.Sublist.cons₂ _ (ih iE)

end AssDocument

/-- Counterexample for C8: a `Comment:` line following a Dialogue line
inside the event section is written before the event lines, so the
load–save cycle does not preserve the relative order of those two input
lines (both still appear in the output). -/
theorem claim_C8_counterexample :
    isSubseq
      [("Dialogue: 0,0:00:00.00,0:00:01.00,Default,,0,0,0,,hi").data,
       ("Comment: x").data]
      [("[Events]").data, ("Format: Layer, Start, End, Style, Name, Text").data,
       ("Dialogue: 0,0:00:00.00,0:00:01.00,Default,,0,0,0,,hi").data,
       ("Comment: x").data] = true ∧
    isSubseq
      [("Dialogue: 0,0:00:00.00,0:00:01.00,Default,,0,0,0,,hi").data,
       ("Comment: x").data]
      ((AssDocument.save
        (AssDocument.load
          [("[Events]").data, ("Format: Layer, Start, End, Style, Name, Text").data,
           ("Dialogue: 0,0:00:00.00,0:00:01.00,Default,,0,0,0,,hi").data,
           ("Comment: x").data])
        (AssDocument.load
          [("[Events]").data, ("Format: Layer, Start, End, Style, Name, Text").data,
           ("Dialogue: 0,0:00:00.00,0:00:01.00,Default,,0,0,0,,hi").data,
           ("Comment: x").data]).items).fileLines) = false ∧
    ("Dialogue: 0,0:00:00.00,0:00:01.00,Default,,0,0,0,,hi").data ∈
      ((AssDocument.save
        (AssDocument.load
          [("[Events]").data, ("Format: Layer, Start, End, Style, Name, Text").data,
           ("Dialogue: 0,0:00:00.00,0:00:01.00,Default,,0,0,0,,hi").data,
           ("Comment: x").data])
        (AssDocument.load
          [("[Events]").data, ("Format: Layer, Start, End, Style, Name, Text").data,
           ("Dialogue: 0,0:00:00.00,0:00:01.00,Default,,0,0,0,,hi").data,
           ("Comment: x").data]).items).fileLines) := by
  refine ⟨by decide, ?_, ?_⟩ <;> decide

/-- C8 (amended): a load–save cycle writes all header-classified lines
first, in their input order (a subsequence of the processed input lines),
followed by all reconstructed event lines. -/
theorem claim_C8_headers_before_events (lines blocks : List (List Char)) :
    (AssDocument.save (AssDocument.load lines) blocks).fileLines =
      AssDocument.headerLinesOf false lines ++
        (AssDocument.save (AssDocument.load lines) blocks).eventLines ∧
    (AssDocument.headerLinesOf false lines).Sublist
      (lines.map (fun l => bomStrip (pyStrip l))) := by
  constructor
  · show (AssDocument.load lines).headers ++ _ = _
    rw [show (AssDocument.load lines).headers = AssDocument.headerLinesOf false lines
      from (AssDocument.loadAux_spec lines false 1).2.2]
    rfl
  · exact AssDocument.headerLinesOf_sublist lines false

namespace AssDocument
namespace Rx

theorem oalt_some {x : List Char} {b : Option (List Char)} :
    oalt (some x) b = some x := rfl

theorem oalt_none {b : Option (List Char)} : oalt none b = b := rfl

theorem cls_taken {p : Char → Bool} {k : List Char → Option (List Char)}
    {c : Char} {l : List Char} (h : p c = true) : cls p k (c :: l) = k l := by
  rw [cls, if_pos h]

theorem cls_skip {p : Char → Bool} {k : List Char → Option (List Char)}
    {c : Char} {l : List Char} (h : p c = false) : cls p k (c :: l) = none := by
  rw [cls, if_neg (by rw [h]; simp)]

theorem cls_nil {p : Char → Bool} {k : List Char → Option (List Char)} :
    cls p k [] = none := rfl

theorem lit_taken {c : Char} {k : List Char → Option (List Char)} {l : List Char} :
    lit c k (c :: l) = k l :=
  cls_taken (by simp)

theorem lit_skip {c d : Char} {k : List Char → Option (List Char)} {l : List Char}
    (h : d ≠ c) : lit c k (d :: l) = none :=
  cls_skip (by simp [h])

theorem star_nil {p : Char → Bool} {k : List Char → Option (List Char)} :
    star p k [] = k [] := rfl

theorem star_skip {p : Char → Bool} {k : List Char → Option (List Char)}
    {c : Char} {l : List Char} (h : p c = false) : star p k (c :: l) = k (c :: l) := by
  rw [star, if_neg (by rw [h]; simp)]

theorem star_cons {p : Char → Bool} {k : List Char → Option (List Char)}
    {c : Char} {l : List Char} (h : p c = true) :
    star p k (c :: l) = oalt (star p k l) (k (c :: l)) := by
  rw [star, if_pos h]

/-- Greedy-star success through a maximal run: the class characters of `a`
are consumed, the continuation succeeds right at `b`, and `b` cannot be
entered by the star. -/
theorem star_exact {p : Char → Bool} {k : List Char → Option (List Char)} :
    ∀ {a b : List Char} {v : List Char},
      (∀ c ∈ a, p c = true) →
      (b = [] ∨ ∃ c, b.head? = some c ∧ p c = false) →
      k b = some v → star p k (a ++ b) = some v := by
  intro a
  induction a with
  | nil =>
    intro b v _ hb hk
    rcases hb with hb | ⟨c, hc, hpc⟩
    · subst hb
      rw [List.nil_append, star_nil, hk]
    · cases b with
      | nil => cases hc
      | cons c0 l =>
        injection hc with hc0
        subst hc0
        rw [List.nil_append, star_skip hpc, hk]
  | cons a0 a ih =>
    intro b v ha hb hk
    have h0 : p a0 = true := ha a0 (by simp)
    rw [List.cons_append, star_cons h0,
      ih (fun c hc => ha c (List.mem_cons_of_mem a0 hc)) hb hk]
    rfl

/-- Failure of the greedy star: the continuation fails at every reachable
stopping point. -/
theorem star_none {p : Char → Bool} {k : List Char → Option (List Char)} :
    ∀ {l : List Char},
      (∀ a b, l = a ++ b → (∀ c ∈ a, p c = true) → k b = none) →
      star p k l = none := by
  intro l
  induction l with
  | nil => intro h; rw [star_nil]; exact h [] [] rfl (by simp)
  | cons c t ih =>
    intro h
    by_cases hc : p c = true
    · rw [star_cons hc]
      have h1 : star p k t = none := by
        apply ih
        intro a b hab hall
        apply h (c :: a) b (by rw [hab]; rfl)
        intro d hd
        rcases List.mem_cons.mp hd with h' | h'
        · rw [h']; exact hc
        · exact hall d h'
      rw [h1, oalt_none]
      exact h [] (c :: t) rfl (by simp)
    · rw [star_skip (Bool.not_eq_true _ |>.mp hc)]
      exact h [] (c :: t) rfl (by simp)

theorem rep13_three {p : Char → Bool} {k : List Char → Option (List Char)}
    {c1 c2 c3 : Char} {l v : List Char}
    (h1 : p c1 = true) (h2 : p c2 = true) (h3 : p c3 = true)
    (hk : k l = some v) : rep13 p k (c1 :: c2 :: c3 :: l) = some v := by
  unfold rep13
  rw [cls_taken h1]
  rw [cls_taken h2, cls_taken h3, hk]
  rfl

theorem plus_run {p : Char → Bool} {k : List Char → Option (List Char)}
    {a b v : List Char} (hne : a ≠ []) (ha : ∀ c ∈ a, p c = true)
    (hb : b = [] ∨ ∃ c, b.head? = some c ∧ p c = false)
    (hk : k b = some v) : plus p k (a ++ b) = some v := by
  cases a with
  | nil => cases hne rfl
  | cons a0 a' =>
    unfold plus
    rw [List.cons_append, cls_taken (ha a0 (by simp))]
    exact star_exact (fun c hc => ha c (List.mem_cons_of_mem a0 hc)) hb hk

end Rx
end AssDocument

namespace AssDocument

theorem dig_nat {c : Char} (h : isDig c = true) : 48 ≤ c.toNat ∧ c.toNat ≤ 57 := by
  unfold isDig at h
  simp at h
  exact h

theorem dig_not_ws {c : Char} (h : isDig c = true) : isPySpace c = false := by
  have h1 := dig_nat h
  cases hw : isPySpace c
  · rfl
  · exfalso
    unfold isPySpace at hw
    simp at hw
    omega

theorem dig_ne_nl {c : Char} (h : isDig c = true) : c ≠ '\n' := by
  intro he
  rw [he] at h
  exact absurd h (by decide)

theorem dig_ne_colon {c : Char} (h : isDig c = true) : c ≠ ':' := by
  intro he
  rw [he] at h
  exact absurd h (by decide)

theorem dig_not_beq_nl {c : Char} (h : isDig c = true) : (c == '\n') = false := by
  simp [dig_ne_nl h]

theorem natStrAux_spec :
    ∀ (f n : Nat), n < f →
      natStrAux f n ≠ [] ∧ ∀ c ∈ natStrAux f n, isDig c = true := by
  intro f
  induction f with
  | zero => intro n h; exact absurd h (Nat.not_lt_zero n)
  | succ f ih =>
    intro n h
    by_cases h10 : n < 10
    · rw [natStrAux, if_pos h10]
      refine ⟨by simp, ?_⟩
      intro c hc
      have hc1 : c = Char.ofNat (48 + n) := List.mem_singleton.mp hc
      subst hc1
      interval_cases n <;> decide
    · rw [natStrAux, if_neg h10]
      have hdiv : n / 10 < f := by omega
      have ih1 := ih (n / 10) hdiv
      constructor
      · intro hnil
        exact ih1.1 (List.append_eq_nil.mp hnil).1
      · intro c hc
        rcases List.mem_append.mp hc with h' | h'
        · exact ih1.2 c h'
        · have hc1 : c = Char.ofNat (48 + n % 10) := List.mem_singleton.mp h'
          subst hc1
          have hm : n % 10 < 10 := Nat.mod_lt _ (by omega)
          revert hm
          generalize n % 10 = r
          intro hm
          interval_cases r <;> decide

theorem natStr_ne_nil (n : Nat) : natStr n ≠ [] :=
  (natStrAux_spec (n + 1) n (Nat.lt_succ_self n)).1

theorem natStr_all_dig (n : Nat) : ∀ c ∈ natStr n, isDig c = true :=
  (natStrAux_spec (n + 1) n (Nat.lt_succ_self n)).2

theorem strictSrt_elim {t : List Char} (hs : strictSrt t = true) :
    ∃ a b c d e f g h i : Char,
      t = [a, b, ':', c, d, ':', e, f, ',', g, h, i] ∧
      isDig a = true ∧ isDig b = true ∧ isDig c = true ∧ isDig d = true ∧
      isDig e = true ∧ isDig f = true ∧ isDig g = true ∧ isDig h = true ∧
      isDig i = true := by
  rcases t with _ | ⟨a, t⟩
  · exact absurd hs (by simp [strictSrt])
  rcases t with _ | ⟨b, t⟩
  · exact absurd hs (by simp [strictSrt])
  rcases t with _ | ⟨x, t⟩
  · exact absurd hs (by simp [strictSrt])
  rcases t with _ | ⟨c, t⟩
  · exact absurd hs (by simp [strictSrt])
  rcases t with _ | ⟨d, t⟩
  · exact absurd hs (by simp [strictSrt])
  rcases t with _ | ⟨y, t⟩
  · exact absurd hs (by simp [strictSrt])
  rcases t with _ | ⟨e, t⟩
  · exact absurd hs (by simp [strictSrt])
  rcases t with _ | ⟨f, t⟩
  · exact absurd hs (by simp [strictSrt])
  rcases t with _ | ⟨z, t⟩
  · exact absurd hs (by simp [strictSrt])
  rcases t with _ | ⟨g, t⟩
  · exact absurd hs (by simp [strictSrt])
  rcases t with _ | ⟨h, t⟩
  · exact absurd hs (by simp [strictSrt])
  rcases t with _ | ⟨i, t⟩
  · exact absurd hs (by simp [strictSrt])
  rcases t with _ | ⟨j, t⟩
  · simp only [strictSrt, Bool.and_eq_true, beq_iff_eq] at hs
    obtain ⟨⟨⟨⟨⟨⟨⟨⟨⟨⟨⟨ha, hb⟩, hx⟩, hc⟩, hd⟩, hy⟩, he⟩, hf⟩, hz⟩, hg⟩, hh⟩, hi⟩ := hs
    exact ⟨a, b, c, d, e, f, g, h, i, by rw [hx, hy, hz],
      ha, hb, hc, hd, he, hf, hg, hh, hi⟩
  · exact absurd hs (by simp [strictSrt])

end AssDocument

namespace AssDocument

theorem lazyTill_nl {l : List Char} : Rx.lazyTill ('\n' :: l) = some l := by
  rw [Rx.lazyTill]
  simp

theorem tsPat_strict {k : List Char → Option (List Char)} {ts tail v : List Char}
    (hs : strictSrt ts = true) (hk : k tail = some v) :
    Rx.tsPat k (ts ++ tail) = some v := by
  obtain ⟨a, b, c, d, e, f, g, h, i, ht, ha, hb, hc, hd, he, hf, hg, hh, hi⟩ :=
    strictSrt_elim hs
  subst ht
  unfold Rx.tsPat Rx.rep2
  simp only [List.cons_append, List.nil_append]
  rw [Rx.cls_taken ha, Rx.cls_taken hb, Rx.lit_taken, Rx.cls_taken hc,
    Rx.cls_taken hd, Rx.lit_taken, Rx.cls_taken he, Rx.cls_taken hf,
    Rx.cls_taken (by decide : Rx.isMsSep ',' = true)]
  exact Rx.rep13_three hg hh hi hk

end AssDocument

namespace AssDocument

theorem tsTail_eval {ts2 tail : List Char} (hs2 : strictSrt ts2 = true) :
    Rx.tsTail (arrowLit ++ (ts2 ++ '\n' :: tail)) = some tail := by
  obtain ⟨a, b, c, d, e, f, g, h, i, ht, ha, _⟩ := strictSrt_elim hs2
  have hhead : (ts2 ++ '\n' :: tail).head? = some a := by
    rw [ht]; rfl
  have hcore : Rx.tsPat Rx.lazyTill (ts2 ++ '\n' :: tail) = some tail :=
    tsPat_strict hs2 lazyTill_nl
  have h3 : Rx.star isPySpace (Rx.tsPat Rx.lazyTill)
      ([' '] ++ (ts2 ++ '\n' :: tail)) = some tail :=
    Rx.star_exact (by decide) (Or.inr ⟨a, hhead, dig_not_ws ha⟩) hcore
  have h2 : Rx.plus Rx.isArrowChar (Rx.star isPySpace (Rx.tsPat Rx.lazyTill))
      (['-', '-', '>'] ++ (' ' :: (ts2 ++ '\n' :: tail))) = some tail :=
    Rx.plus_run (by simp) (by decide) (Or.inr ⟨' ', rfl, by decide⟩) h3
  have h1 : Rx.star isPySpace
      (Rx.plus Rx.isArrowChar (Rx.star isPySpace (Rx.tsPat Rx.lazyTill)))
      ([' '] ++ ('-' :: '-' :: '>' :: ' ' :: (ts2 ++ '\n' :: tail))) = some tail :=
    Rx.star_exact (by decide) (Or.inr ⟨'-', rfl, by decide⟩) h2
  exact h1

theorem idx_core {n : Nat} {ts1 ts2 tail : List Char}
    (h1 : strictSrt ts1 = true) (h2 : strictSrt ts2 = true) :
    Rx.plus isDig Rx.idxTail
      (natStr n ++ '\n' :: (ts1 ++ (arrowLit ++ (ts2 ++ '\n' :: tail)))) = some tail := by
  obtain ⟨a, b, c, d, e, f, g, h, i, ht1, ha1, _⟩ := strictSrt_elim h1
  have hhead1 : (ts1 ++ (arrowLit ++ (ts2 ++ '\n' :: tail))).head? = some a := by
    rw [ht1]; rfl
  have htsPart : Rx.tsPart (ts1 ++ (arrowLit ++ (ts2 ++ '\n' :: tail))) = some tail := by
    unfold Rx.tsPart
    exact Rx.star_exact (a := []) (by simp) (Or.inr ⟨a, hhead1, dig_not_ws ha1⟩)
      (tsPat_strict h1 (tsTail_eval h2))
  have hidx : Rx.idxTail ('\n' :: (ts1 ++ (arrowLit ++ (ts2 ++ '\n' :: tail)))) =
      some tail := by
    unfold Rx.idxTail
    rw [Rx.star_cons (by decide : isPySpace '\n' = true)]
    have hfail : Rx.star isPySpace (Rx.lit '\n' Rx.tsPart)
        (ts1 ++ (arrowLit ++ (ts2 ++ '\n' :: tail))) = none := by
      rw [ht1]
      simp only [List.cons_append]
      rw [Rx.star_skip (dig_not_ws ha1), Rx.lit_skip (dig_ne_nl ha1)]
    rw [hfail, Rx.oalt_none, Rx.lit_taken]
    exact htsPart
  exact Rx.plus_run (natStr_ne_nil n) (natStr_all_dig n)
    (Or.inr ⟨'\n', rfl, by decide⟩) hidx

theorem natStr_cons (n : Nat) : ∃ c0 cs, natStr n = c0 :: cs ∧ isDig c0 = true := by
  rcases h : natStr n with _ | ⟨x, y⟩
  · exact absurd h (natStr_ne_nil n)
  · exact ⟨x, y, rfl, natStr_all_dig n x (by rw [h]; simp)⟩

theorem headerMatch_block {n : Nat} {ts1 ts2 tail : List Char}
    (h1 : strictSrt ts1 = true) (h2 : strictSrt ts2 = true) :
    headerMatchAt true
      (natStr n ++ '\n' :: (ts1 ++ (arrowLit ++ (ts2 ++ '\n' :: tail)))) = some tail := by
  obtain ⟨c0, cs, hns, hc0⟩ := natStr_cons n
  have hhd : (natStr n ++ '\n' :: (ts1 ++ (arrowLit ++ (ts2 ++ '\n' :: tail)))).head? =
      some c0 := by
    rw [head?_append_nonempty (natStr_ne_nil n), hns]
    rfl
  have haft : Rx.afterStart
      (natStr n ++ '\n' :: (ts1 ++ (arrowLit ++ (ts2 ++ '\n' :: tail)))) = some tail := by
    unfold Rx.afterStart
    exact Rx.star_exact (a := []) (by simp) (Or.inr ⟨c0, hhd, dig_not_ws hc0⟩)
      (idx_core h1 h2)
  show Rx.oalt (Rx.afterStart _) _ = some tail
  rw [haft]
  rfl

theorem headerMatch_sep (aB : Bool) {n : Nat} {ts1 ts2 tail : List Char}
    (h1 : strictSrt ts1 = true) (h2 : strictSrt ts2 = true) :
    headerMatchAt aB
      (nl4 ++ (natStr n ++ '\n' :: (ts1 ++ (arrowLit ++ (ts2 ++ '\n' :: tail))))) =
      some tail := by
  obtain ⟨c0, cs, hns, hc0⟩ := natStr_cons n
  have hhd : (natStr n ++ '\n' :: (ts1 ++ (arrowLit ++ (ts2 ++ '\n' :: tail)))).head? =
      some c0 := by
    rw [head?_append_nonempty (natStr_ne_nil n), hns]
    rfl
  have hcore := @idx_core n _ _ tail h1 h2
  cases aB
  · show Rx.lit '\n' Rx.afterStart
      ('\n' :: ('\n' :: '\n' :: '\n' ::
        (natStr n ++ '\n' :: (ts1 ++ (arrowLit ++ (ts2 ++ '\n' :: tail)))))) = some tail
    rw [Rx.lit_taken]
    unfold Rx.afterStart
    exact Rx.star_exact (a := ['\n', '\n', '\n']) (by decide)
      (Or.inr ⟨c0, hhd, dig_not_ws hc0⟩) hcore
  · have haft : Rx.afterStart
        (nl4 ++ (natStr n ++ '\n' :: (ts1 ++ (arrowLit ++ (ts2 ++ '\n' :: tail))))) =
        some tail := by
      unfold Rx.afterStart
      exact Rx.star_exact (a := nl4) (by decide)
        (Or.inr ⟨c0, hhd, dig_not_ws hc0⟩) hcore
    show Rx.oalt (Rx.afterStart _) _ = some tail
    rw [haft]
    rfl

theorem headerMatchAt_false_cons {c : Char} {l : List Char} (h : c ≠ '\n') :
    headerMatchAt false (c :: l) = none :=
  Rx.lit_skip h

theorem headerMatchAt_nil (aB : Bool) : headerMatchAt aB [] = none := by
  cases aB <;> rfl

end AssDocument

namespace AssDocument

theorem hsplitF_step_none {f : Nat} {pending : List Char} {aB : Bool} {c : Char}
    {t : List Char} (h : headerMatchAt aB (c :: t) = none) :
    hsplitF (f + 1) pending aB (c :: t) = hsplitF f (c :: pending) (c == '\n') t := by
  simp only [hsplitF, h]

theorem hsplitF_step_some {f : Nat} {pending : List Char} {aB : Bool}
    {l r : List Char} (h : headerMatchAt aB l = some r) :
    hsplitF (f + 1) pending aB l = pending.reverse :: hsplitF f [] true r := by
  simp only [hsplitF, h]

theorem hsplitF_nil (f : Nat) (pending : List Char) (aB : Bool) :
    hsplitF f pending aB [] = [pending.reverse] := by
  cases f with
  | zero => simp [hsplitF]
  | succ f => simp [hsplitF, headerMatchAt_nil]

theorem headerMatchAt_nohead {c : Char} {l : List Char}
    (hws : isPySpace c = false) (hdig : isDig c = false) (aB : Bool) :
    headerMatchAt aB (c :: l) = none := by
  have hne : c ≠ '\n' := by
    intro he
    rw [he] at hws
    exact absurd hws (by decide)
  cases aB
  · exact Rx.lit_skip hne
  · show Rx.oalt (Rx.afterStart (c :: l)) (Rx.lit '\n' Rx.afterStart (c :: l)) = none
    have h1 : Rx.afterStart (c :: l) = none := by
      unfold Rx.afterStart
      rw [Rx.star_skip hws]
      unfold Rx.plus
      exact Rx.cls_skip hdig
    rw [h1, Rx.oalt_none]
    exact Rx.lit_skip hne

theorem scan_text_mid : ∀ (text : List Char) (f : Nat) (pending tail : List Char),
    (∀ c ∈ text, c ≠ '\n') →
    hsplitF (text.length + f) pending false (text ++ tail) =
      hsplitF f (text.reverse ++ pending) false tail := by
  intro text
  induction text with
  | nil =>
    intro f pending tail _
    simp
  | cons c t ih =>
    intro f pending tail h
    have hc : c ≠ '\n' := h c (by simp)
    rw [show (c :: t).length + f = (t.length + f) + 1 from by
      simp only [List.length_cons]; omega]
    rw [List.cons_append, hsplitF_step_none (headerMatchAt_false_cons hc)]
    rw [show (c == '\n') = false from beq_eq_false_iff_ne.mpr hc]
    rw [ih f (c :: pending) tail (fun c' hc' => h c' (List.mem_cons_of_mem c hc'))]
    rw [show t.reverse ++ (c :: pending) = (c :: t).reverse ++ pending from by simp]

theorem scan_sep_end (f : Nat) (pending : List Char) (aB : Bool) :
    hsplitF (f + 4) pending aB nl4 = [pending.reverse ++ nl4] := by
  have e4 : ∀ a, headerMatchAt a ['\n', '\n', '\n', '\n'] = none := by decide
  have e3 : headerMatchAt true ['\n', '\n', '\n'] = none := by decide
  have e2 : headerMatchAt true ['\n', '\n'] = none := by decide
  have e1 : headerMatchAt true ['\n'] = none := by decide
  show hsplitF ((f + 3) + 1) pending aB ('\n' :: ['\n', '\n', '\n']) = _
  rw [hsplitF_step_none (e4 aB)]
  show hsplitF ((f + 2) + 1) ('\n' :: pending) (('\n' : Char) == '\n')
    ('\n' :: ['\n', '\n']) = _
  rw [show (('\n' : Char) == '\n') = true from rfl, hsplitF_step_none e3]
  show hsplitF ((f + 1) + 1) ('\n' :: '\n' :: pending) (('\n' : Char) == '\n')
    ('\n' :: ['\n']) = _
  rw [show (('\n' : Char) == '\n') = true from rfl, hsplitF_step_none e2]
  show hsplitF (f + 1) ('\n' :: '\n' :: '\n' :: pending) (('\n' : Char) == '\n')
    ('\n' :: []) = _
  rw [show (('\n' : Char) == '\n') = true from rfl, hsplitF_step_none e1]
  rw [show (('\n' : Char) == '\n') = true from rfl, hsplitF_nil]
  simp [nl4]

theorem scan_to_sep (text : List Char) (f : Nat) (aB : Bool) (rest : List Char)
    (hnl : ∀ c ∈ text, c ≠ '\n')
    (hhd : ∀ c cs, text = c :: cs → isPySpace c = false ∧ isDig c = false)
    (hf : text.length + 1 ≤ f) :
    ∃ aB2, hsplitF f [] aB (text ++ rest) =
      hsplitF (f - text.length) text.reverse aB2 rest := by
  cases text with
  | nil =>
    exact ⟨aB, by simp⟩
  | cons c t =>
    simp only [List.length_cons] at hf
    cases f with
    | zero => omega
    | succ f' =>
      refine ⟨false, ?_⟩
      have hc := hhd c t rfl
      have hcn : c ≠ '\n' := by
        intro he
        rw [he] at hc
        exact absurd hc.1 (by decide)
      rw [List.cons_append, hsplitF_step_none (headerMatchAt_nohead hc.1 hc.2 aB)]
      rw [show (c == '\n') = false from beq_eq_false_iff_ne.mpr hcn]
      obtain ⟨g, hg⟩ : ∃ g, f' = t.length + g := ⟨f' - t.length, by omega⟩
      rw [hg]
      rw [scan_text_mid t g [c] rest (fun c' hc' => hnl c' (List.mem_cons_of_mem c hc'))]
      rw [show t.reverse ++ [c] = (c :: t).reverse from by simp]
      rw [show t.length + g + 1 - (c :: t).length = g from by
        simp only [List.length_cons]; omega]

end AssDocument

theorem not_mem_of_contains_false {l : List Char} {c : Char}
    (h : l.contains c = false) : c ∉ l := by
  intro hm
  have h2 : l.contains c = true :=
    List.contains_iff_exists_mem_beq.mpr ⟨c, hm, by simp⟩
  rw [h2] at h
  simp at h

namespace AssDocument

theorem dig_ne_bs {c : Char} (h : isDig c = true) : c ≠ '\\' := by
  intro he
  rw [he] at h
  exact absurd h (by decide)

theorem strictSrt_length {t : List Char} (h : strictSrt t = true) : t.length = 12 := by
  obtain ⟨a, b, c, d, e, f, g, h', i, ht, -⟩ := strictSrt_elim h
  rw [ht]
  rfl

theorem strictSrt_mem {t : List Char} (h : strictSrt t = true) :
    ∀ c ∈ t, c ≠ '\\' ∧ c ≠ '\n' := by
  obtain ⟨a, b, c, d, e, f, g, h', i, ht, ha, hb, hc, hd, he, hf, hg, hh, hi⟩ :=
    strictSrt_elim h
  subst ht
  intro x hx
  simp only [List.mem_cons, List.not_mem_nil, or_false] at hx
  rcases hx with h0 | h0 | h0 | h0 | h0 | h0 | h0 | h0 | h0 | h0 | h0 | h0 <;>
    subst h0 <;>
    first
      | exact ⟨dig_ne_bs (by assumption), dig_ne_nl (by assumption)⟩
      | exact ⟨by decide, by decide⟩

theorem safeD_elim {d : DInfo} (h : safeD d = true) :
    stripKaraoke (d.parts.getD 9 []) = d.parts.getD 9 [] ∧
    '\\' ∉ rawKOf d ∧ '\n' ∉ rawKOf d ∧
    (∀ c cs, rawKOf d = c :: cs →
      isPySpace c = false ∧ isDig c = false ∧ c ∉ openersHint) ∧
    (∀ c, (rawKOf d).getLast? = some c → isPySpace c = false) ∧
    ']' ∉ pyStrip (d.parts.getD 4 []) ∧ '\\' ∉ pyStrip (d.parts.getD 4 []) ∧
    '\n' ∉ pyStrip (d.parts.getD 4 []) ∧
    ')' ∉ pyStrip (d.parts.getD 3 []) ∧ '）' ∉ pyStrip (d.parts.getD 3 []) ∧
    '\\' ∉ pyStrip (d.parts.getD 3 []) ∧ '\n' ∉ pyStrip (d.parts.getD 3 []) ∧
    strictSrt (assTimeToSrt (pyStrip (d.parts.getD 1 []))) = true ∧
    strictSrt (assTimeToSrt (pyStrip (d.parts.getD 2 []))) = true := by
  unfold safeD at h
  simp only [Bool.and_eq_true, Bool.not_eq_true', decide_eq_true_eq] at h
  obtain ⟨h', h14⟩ := h
  obtain ⟨h', h13⟩ := h'
  obtain ⟨h', h12⟩ := h'
  obtain ⟨h', h11⟩ := h'
  obtain ⟨h', h10⟩ := h'
  obtain ⟨h', h9⟩ := h'
  obtain ⟨h', h8⟩ := h'
  obtain ⟨h', h7⟩ := h'
  obtain ⟨h', h6⟩ := h'
  obtain ⟨h', h5⟩ := h'
  obtain ⟨h', h4⟩ := h'
  obtain ⟨h', h3⟩ := h'
  obtain ⟨h1, h2⟩ := h'
  refine ⟨h1, not_mem_of_contains_false h2, not_mem_of_contains_false h3, ?_, ?_,
    not_mem_of_contains_false h6, not_mem_of_contains_false h7,
    not_mem_of_contains_false h8, not_mem_of_contains_false h9,
    not_mem_of_contains_false h10, not_mem_of_contains_false h11,
    not_mem_of_contains_false h12, h13, h14⟩
  · intro c cs hc
    rw [hc] at h4
    simp only [List.head?_cons, Bool.and_eq_true, Bool.not_eq_true'] at h4
    exact ⟨h4.1.1, h4.1.2, not_mem_of_contains_false h4.2⟩
  · intro c hc
    rw [hc] at h5
    simp only [Bool.not_eq_true'] at h5
    exact h5

theorem mkCtx_mem {A S R : List Char} {c : Char} (hm : c ∈ mkCtx A S R) :
    c = '[' ∨ c = ']' ∨ c = '(' ∨ c = ')' ∨ c ∈ A ∨ c ∈ S := by
  unfold mkCtx at hm
  rcases List.mem_append.mp hm with h | h
  · split at h
    · rcases List.mem_cons.mp h with h0 | h0
      · exact Or.inl h0
      · rcases List.mem_append.mp h0 with h1 | h1
        · exact Or.inr (Or.inr (Or.inr (Or.inr (Or.inl h1))))
        · exact Or.inr (Or.inl (List.mem_singleton.mp h1))
    · cases h
  · split at h
    · rcases List.mem_cons.mp h with h0 | h0
      · exact Or.inr (Or.inr (Or.inl h0))
      · rcases List.mem_append.mp h0 with h1 | h1
        · exact Or.inr (Or.inr (Or.inr (Or.inr (Or.inr h1))))
        · exact Or.inr (Or.inr (Or.inr (Or.inl (List.mem_singleton.mp h1))))
    · cases h

theorem textOf_chars {d : DInfo} (h : safeD d = true) :
    ∀ c ∈ textOf d, c ≠ '\\' ∧ c ≠ '\n' := by
  obtain ⟨-, hbs, hnlR, -, -, -, hA2, hA3, -, -, hS3, hS4, -, -⟩ := safeD_elim h
  intro c hc
  unfold textOf finalPrompt at hc
  have hR : c ∈ rawKOf d → c ≠ '\\' ∧ c ≠ '\n' := fun hm =>
    ⟨fun he => hbs (he ▸ hm), fun he => hnlR (he ▸ hm)⟩
  split at hc
  · rcases List.mem_append.mp hc with h0 | h0
    · rcases mkCtx_mem h0 with h1 | h1 | h1 | h1 | h1 | h1
      · exact h1 ▸ ⟨by decide, by decide⟩
      · exact h1 ▸ ⟨by decide, by decide⟩
      · exact h1 ▸ ⟨by decide, by decide⟩
      · exact h1 ▸ ⟨by decide, by decide⟩
      · exact ⟨fun he => hA2 (he ▸ h1), fun he => hA3 (he ▸ h1)⟩
      · exact ⟨fun he => hS3 (he ▸ h1), fun he => hS4 (he ▸ h1)⟩
    · rcases List.mem_cons.mp h0 with h1 | h1
      · exact h1 ▸ ⟨by decide, by decide⟩
      · exact hR h1
  · exact hR hc

theorem textOf_head {d : DInfo} (h : safeD d = true) :
    ∀ c cs, textOf d = c :: cs → isPySpace c = false ∧ isDig c = false := by
  obtain ⟨-, -, -, hhead, -⟩ := safeD_elim h
  intro c cs hc
  unfold textOf finalPrompt at hc
  split at hc
  · rename_i hctx
    unfold mkCtx at hc hctx
    by_cases hb : pyStrip (d.parts.getD 4 []) ≠ [] ∧
        ¬ containsSub (rawKOf d) (pyStrip (d.parts.getD 4 [])) = true
    · rw [if_pos hb] at hc
      simp only [List.cons_append] at hc
      injection hc with hc0
      subst hc0
      exact ⟨by decide, by decide⟩
    · rw [if_neg hb, List.nil_append] at hc
      by_cases hs : pyStrip (d.parts.getD 3 []) ≠ [] ∧
          pyLower (pyStrip (d.parts.getD 3 [])) ≠ ("default").data ∧
          ¬ startsDigit (pyStrip (d.parts.getD 3 [])) = true ∧
          ¬ containsSub (rawKOf d) (pyStrip (d.parts.getD 3 [])) = true
      · rw [if_pos hs] at hc
        simp only [List.cons_append] at hc
        injection hc with hc0
        subst hc0
        exact ⟨by decide, by decide⟩
      · rw [if_neg hb, List.nil_append, if_neg hs] at hctx
        exact absurd rfl hctx
  · have h0 := hhead c cs hc
    exact ⟨h0.1, h0.2.1⟩

end AssDocument

namespace AssDocument

theorem scan_stream : ∀ (ds : List DInfo) (m : Nat) (text : List Char) (f : Nat)
    (aB : Bool),
    (∀ d ∈ ds, safeD d = true) →
    (∀ c ∈ text, c ≠ '\n') →
    (∀ c cs, text = c :: cs → isPySpace c = false ∧ isDig c = false) →
    (text ++ (nl4 ++ streamOf m ds)).length + 1 ≤ f →
    hsplitF f [] aB (text ++ (nl4 ++ streamOf m ds)) = segsFrom text ds := by
  intro ds
  induction ds with
  | nil =>
    intro m text f aB _ hnl hhd hf
    rw [show nl4 ++ streamOf m [] = nl4 from by
      rw [show streamOf m [] = [] from rfl, List.append_nil]] at hf ⊢
    simp only [List.length_append, nl4, List.length_cons, List.length_nil] at hf
    obtain ⟨aB2, he⟩ := scan_to_sep text f aB nl4 hnl hhd (by omega)
    rw [he]
    obtain ⟨g, hg⟩ : ∃ g, f - text.length = g + 4 := ⟨f - text.length - 4, by omega⟩
    rw [hg, scan_sep_end]
    simp [segsFrom]
  | cons d ds ih =>
    intro m text f aB hsafe hnl hhd hf
    have hd := hsafe d (List.mem_cons_self d ds)
    have hds : ∀ e ∈ ds, safeD e = true := fun e he => hsafe e (List.mem_cons_of_mem d he)
    have hse := safeD_elim hd
    have hts1 := hse.2.2.2.2.2.2.2.2.2.2.2.2.1
    have hts2 := hse.2.2.2.2.2.2.2.2.2.2.2.2.2
    have hre : nl4 ++ streamOf m (d :: ds) =
        nl4 ++ (natStr m ++ '\n' :: (assTimeToSrt (pyStrip (d.parts.getD 1 [])) ++
          (arrowLit ++ (assTimeToSrt (pyStrip (d.parts.getD 2 [])) ++ '\n' ::
            (textOf d ++ (nl4 ++ streamOf (m + 1) ds)))))) := by
      simp [streamOf, blockOf, pseudoBlock, arrowLit, nl2, nl4, List.append_assoc]
    rw [hre] at hf ⊢
    have hf2 : text.length + 1 ≤ f := by
      simp only [List.length_append] at hf
      omega
    obtain ⟨aB2, he⟩ := scan_to_sep text f aB _ hnl hhd hf2
    rw [he]
    obtain ⟨g, hg⟩ : ∃ g, f - text.length = g + 1 := ⟨f - text.length - 1, by
      simp only [List.length_append] at hf
      omega⟩
    rw [hg, hsplitF_step_some (headerMatch_sep aB2 hts1 hts2), List.reverse_reverse]
    rw [show segsFrom text (d :: ds) = text :: segsFrom (textOf d) ds from rfl]
    congr 1
    apply ih (m + 1) (textOf d) g true hds
      (fun c hc => (textOf_chars hd c hc).2) (textOf_head hd)
    have hl1 : (assTimeToSrt (pyStrip (d.parts.getD 1 []))).length = 12 :=
      strictSrt_length hts1
    have hl2 : (assTimeToSrt (pyStrip (d.parts.getD 2 []))).length = 12 :=
      strictSrt_length hts2
    simp only [List.length_append, List.length_cons, hl1, hl2] at hf ⊢
    omega

theorem headerSegments_stream {d : DInfo} {ds : List DInfo}
    (hsafe : ∀ e ∈ d :: ds, safeD e = true) :
    headerSegments (streamOf 1 (d :: ds)) = [] :: segsFrom (textOf d) ds := by
  have hd := hsafe d (List.mem_cons_self d ds)
  have hds : ∀ e ∈ ds, safeD e = true := fun e he => hsafe e (List.mem_cons_of_mem d he)
  have hse := safeD_elim hd
  have hts1 := hse.2.2.2.2.2.2.2.2.2.2.2.2.1
  have hts2 := hse.2.2.2.2.2.2.2.2.2.2.2.2.2
  have hre : streamOf 1 (d :: ds) =
      natStr 1 ++ '\n' :: (assTimeToSrt (pyStrip (d.parts.getD 1 [])) ++
        (arrowLit ++ (assTimeToSrt (pyStrip (d.parts.getD 2 [])) ++ '\n' ::
          (textOf d ++ (nl4 ++ streamOf 2 ds))))) := by
    simp [streamOf, blockOf, pseudoBlock, arrowLit, nl2, nl4, List.append_assoc]
  unfold headerSegments
  rw [hre]
  rw [hsplitF_step_some (headerMatch_block hts1 hts2)]
  rw [List.reverse_nil]
  congr 1
  apply scan_stream ds 2 (textOf d) _ true hds
    (fun c hc => (textOf_chars hd c hc).2) (textOf_head hd)
  have hl1 : (assTimeToSrt (pyStrip (d.parts.getD 1 []))).length = 12 :=
    strictSrt_length hts1
  have hl2 : (assTimeToSrt (pyStrip (d.parts.getD 2 []))).length = 12 :=
    strictSrt_length hts2
  have hn : 1 ≤ (natStr 1).length := List.length_pos.mpr (natStr_ne_nil 1)
  simp only [List.length_append, List.length_cons, hl1, hl2]
  omega

theorem segsFrom_ne_nil (t : List Char) (ds : List DInfo) : segsFrom t ds ≠ [] := by
  cases ds <;> simp [segsFrom]

theorem translatedUnits_stream {d : DInfo} {ds : List DInfo}
    (hsafe : ∀ e ∈ d :: ds, safeD e = true) :
    translatedUnits (streamOf 1 (d :: ds)) = (segsFrom (textOf d) ds).map pyStrip := by
  unfold translatedUnits
  rw [headerSegments_stream hsafe]
  have hp : 0 < (segsFrom (textOf d) ds).length :=
    List.length_pos.mpr (segsFrom_ne_nil _ _)
  rw [if_pos (by simp only [List.length_cons]; omega)]
  simp

theorem dropWhile_nil_of_all {p : Char → Bool} {w : List Char}
    (h : ∀ c ∈ w, p c = true) : w.dropWhile p = [] :=
  List.dropWhile_eq_nil_iff.mpr h

theorem pyStrip_append_ws {x w : List Char} (hw : ∀ c ∈ w, isPySpace c = true) :
    pyStrip (x ++ w) = pyStrip x := by
  unfold pyStrip
  rw [List.dropWhile_append]
  by_cases hx : (x.dropWhile isPySpace).isEmpty = true
  · rw [if_pos hx]
    rw [dropWhile_nil_of_all hw]
    rw [List.isEmpty_eq_true.mp hx]
  · rw [if_neg hx]
    rw [List.reverse_append]
    rw [List.dropWhile_append]
    rw [if_pos (by
      rw [dropWhile_nil_of_all (fun c hc => hw c (List.mem_reverse.mp hc))]
      rfl)]

theorem segsFrom_strip : ∀ (ds : List DInfo) (t : List Char),
    (segsFrom t ds).map pyStrip =
      pyStrip t :: ds.map (fun e => pyStrip (textOf e)) := by
  intro ds
  induction ds with
  | nil =>
    intro t
    simp [segsFrom, pyStrip_append_ws (w := nl4) (by decide)]
  | cons e es ih =>
    intro t
    simp [segsFrom, ih (textOf e)]

end AssDocument

theorem getLast?_append_right {x y : List Char} (h : y ≠ []) :
    (x ++ y).getLast? = y.getLast? := by
  rw [← List.head?_reverse, List.reverse_append,
    head?_append_nonempty (by simp [h]), List.head?_reverse]

theorem getLast?_concat' {x : List Char} {a : Char} :
    (x ++ [a]).getLast? = some a := by
  rw [getLast?_append_right (by simp)]
  rfl

namespace AssDocument

theorem pyStrip_id {l : List Char}
    (hhd : ∀ c cs, l = c :: cs → isPySpace c = false)
    (hlast : ∀ c, l.getLast? = some c → isPySpace c = false) :
    pyStrip l = l := by
  cases l with
  | nil => rfl
  | cons c t =>
    unfold pyStrip
    have h1 : (c :: t).dropWhile isPySpace = c :: t := by
      rw [List.dropWhile_cons, if_neg (by simp [hhd c t rfl])]
    rw [h1]
    rcases hr : (c :: t).reverse with _ | ⟨d, r⟩
    · exact absurd (congrArg List.length hr) (by simp)
    · have hd : (c :: t).getLast? = some d := by
        rw [← List.head?_reverse, hr]
        rfl
      rw [List.dropWhile_cons, if_neg (by simp [hlast d hd])]
      rw [← hr, List.reverse_reverse]

theorem stripBracketOnce_skip {l : List Char}
    (h : ∀ c cs, l = c :: cs → c ≠ '[' ∧ c ≠ '【') : stripBracketOnce l = l := by
  cases l with
  | nil => rfl
  | cons c t =>
    have hc := h c t rfl
    simp only [stripBracketOnce]
    rw [if_neg hc.1, if_neg hc.2]

theorem stripParenOnce_skip {l : List Char}
    (h : ∀ c cs, l = c :: cs → ¬(c = '(' ∨ c = '（')) : stripParenOnce l = l := by
  cases l with
  | nil => rfl
  | cons c t =>
    simp only [stripParenOnce]
    rw [if_neg (h c t rfl)]

end AssDocument

theorem replaceSubF_noop {p0 : Char} {pr rep : List Char} :
    ∀ (f : Nat) (l : List Char), p0 ∉ l → replaceSubF (p0 :: pr) rep f l = l
  | 0, _, _ => rfl
  | _ + 1, [], _ => rfl
  | f + 1, c :: t, h => by
    have hne : p0 ≠ c := fun he => h (by rw [he]; exact List.mem_cons_self c t)
    have hp : (p0 :: pr).isPrefixOf (c :: t) = false := by
      simp [List.isPrefixOf, beq_eq_false_iff_ne.mpr hne]
    simp only [replaceSubF]
    rw [if_neg (by simp [hp])]
    rw [replaceSubF_noop f t (fun hm => h (List.mem_cons_of_mem c hm))]

theorem replaceSub_noop {p0 : Char} {pr rep l : List Char} (h : p0 ∉ l) :
    replaceSub (p0 :: pr) rep l = l :=
  replaceSubF_noop l.length l h

theorem containsSub_false {p0 : Char} {pr : List Char} :
    ∀ {l : List Char}, p0 ∉ l → containsSub l (p0 :: pr) = false := by
  intro l
  induction l with
  | nil => intro _; rfl
  | cons c t ih =>
    intro h
    have hne : p0 ≠ c := fun he => h (by rw [he]; exact List.mem_cons_self c t)
    show ((p0 :: pr).isPrefixOf (c :: t) || containsSub t (p0 :: pr)) = false
    rw [ih (fun hm => h (List.mem_cons_of_mem c hm))]
    simp [List.isPrefixOf, beq_eq_false_iff_ne.mpr hne]

namespace AssDocument

theorem dedupN_noop {l : List Char}
    (h : containsSub l ('\\' :: 'N' :: '\\' :: ['N']) = false) : dedupN l = l := by
  unfold dedupN
  cases hl : l.length with
  | zero => rfl
  | succ n => simp [dedupNF, h]

theorem bindTail {R : List Char} (hbs : '\\' ∉ R) (hnl : '\n' ∉ R)
    (hhd : ∀ c cs, R = c :: cs → isPySpace c = false)
    (hlast : ∀ c, R.getLast? = some c → isPySpace c = false) :
    dedupN (replaceSub ['\n'] ('\\' :: ['N']) (pyStrip R)) = R := by
  rw [pyStrip_id hhd hlast, replaceSub_noop hnl]
  exact dedupN_noop (containsSub_false hbs)

theorem stripCtx_bp {A S tail : List Char} (hA1 : ']' ∉ A) (hA3 : '\n' ∉ A)
    (hS1 : ')' ∉ S) (hS2 : '）' ∉ S) (hS4 : '\n' ∉ S) :
    stripCtx ('[' :: (A ++ ']' :: '(' :: (S ++ ')' :: tail))) =
      tail.dropWhile isPySpace := by
  unfold stripCtx
  rw [stripBracketOnce_tag hA1 hA3, stripParenOnce_tag hS1 hS2 hS4]

theorem stripCtx_b {A tail : List Char} (hA1 : ']' ∉ A) (hA3 : '\n' ∉ A) :
    stripCtx ('[' :: (A ++ ']' :: tail)) =
      (stripParenOnce tail).dropWhile isPySpace := by
  unfold stripCtx
  rw [stripBracketOnce_tag hA1 hA3]

theorem stripCtx_p {S tail : List Char}
    (hS1 : ')' ∉ S) (hS2 : '）' ∉ S) (hS4 : '\n' ∉ S) :
    stripCtx ('(' :: (S ++ ')' :: tail)) = tail.dropWhile isPySpace := by
  unfold stripCtx
  rw [stripBracketOnce_skip (fun c cs h => by
    injection h with h1 _
    subst h1
    exact ⟨by decide, by decide⟩)]
  rw [stripParenOnce_tag hS1 hS2 hS4]

theorem pyStrip_join {x R : List Char} (hc : x ≠ [])
    (hh : ∀ c cs, x = c :: cs → isPySpace c = false)
    (hlast : ∀ c, x.getLast? = some c → isPySpace c = false)
    (hRhd : ∀ c cs, R = c :: cs → isPySpace c = false)
    (hRlast : ∀ c, R.getLast? = some c → isPySpace c = false) :
    pyStrip (x ++ ' ' :: R) = if R = [] then x else x ++ ' ' :: R := by
  cases hR0 : R with
  | nil =>
    rw [if_pos rfl]
    rw [show x ++ ' ' :: ([] : List Char) = x ++ [' '] from rfl]
    rw [pyStrip_append_ws (by decide)]
    exact pyStrip_id hh hlast
  | cons r0 rr =>
    rw [if_neg (by simp)]
    apply pyStrip_id
    · intro c cs h
      rcases hcs : x with _ | ⟨c0, ct⟩
      · exact absurd hcs hc
      · rw [hcs] at h
        simp only [List.cons_append] at h
        injection h with h1 _
        exact h1 ▸ hh c0 ct hcs
    · intro z hz
      rw [getLast?_append_right (by simp)] at hz
      rw [show (' ' :: r0 :: rr) = [' '] ++ (r0 :: rr) from rfl] at hz
      rw [getLast?_append_right (by simp)] at hz
      exact hRlast z (by rw [hR0]; exact hz)

end AssDocument

namespace AssDocument

theorem stripHint_all {A S R : List Char}
    (hA1 : ']' ∉ A) (hA3 : '\n' ∉ A)
    (hS1 : ')' ∉ S) (hS2 : '）' ∉ S) (hS4 : '\n' ∉ S)
    (hhead : ∀ c cs, R = c :: cs → isPySpace c = false ∧ c ∉ openersHint)
    (hlast : ∀ c, R.getLast? = some c → isPySpace c = false) :
    stripCtx (pyStrip (finalPrompt A S R)) = R := by
  have hRhd : ∀ c cs, R = c :: cs → isPySpace c = false := fun c cs h => (hhead c cs h).1
  have hRdrop : R.dropWhile isPySpace = R := by
    cases R with
    | nil => rfl
    | cons c cs => rw [List.dropWhile_cons, if_neg (by simp [hRhd c cs rfl])]
  have hRstrip : pyStrip R = R := pyStrip_id hRhd hlast
  have hhead4 : ∀ c cs, R = c :: cs → c ≠ '[' ∧ c ≠ '【' ∧ c ≠ '(' ∧ c ≠ '（' := by
    intro c cs hc
    have h0 := (hhead c cs hc).2
    simp only [openersHint, List.mem_cons, List.not_mem_nil, or_false, not_or] at h0
    exact h0
  have hstripR : stripCtx R = R := by
    unfold stripCtx
    rw [stripBracketOnce_skip (fun c cs hc => ⟨(hhead4 c cs hc).1, (hhead4 c cs hc).2.1⟩)]
    rw [stripParenOnce_skip (fun c cs hc hor => by
      rcases hor with h0 | h0
      · exact (hhead4 c cs hc).2.2.1 h0
      · exact (hhead4 c cs hc).2.2.2 h0)]
    exact hRdrop
  unfold finalPrompt
  by_cases hctx : mkCtx A S R = []
  · rw [if_neg (by simp [hctx])]
    rw [hRstrip, hstripR]
  · rw [if_pos hctx]
    by_cases hb : A ≠ [] ∧ ¬ containsSub R A = true
    · by_cases hs : S ≠ [] ∧ pyLower S ≠ ("default").data ∧ ¬ startsDigit S = true ∧
          ¬ containsSub R S = true
      · have hctxeq : mkCtx A S R = ('[' :: A ++ [']']) ++ ('(' :: S ++ [')']) := by
          unfold mkCtx
          rw [if_pos hb, if_pos hs]
        rw [hctxeq]
        have hjoin := pyStrip_join (x := ('[' :: A ++ [']']) ++ ('(' :: S ++ [')']))
          (R := R) (by simp)
          (fun c cs h => by
            simp only [List.cons_append, List.append_assoc] at h
            injection h with h1 _
            subst h1
            decide)
          (fun z hz => by
            rw [show ('[' :: A ++ [']']) ++ ('(' :: S ++ [')']) =
              ('[' :: A ++ ']' :: '(' :: S) ++ [')'] from by simp] at hz
            rw [getLast?_concat'] at hz
            injection hz with hz1
            rw [← hz1]
            decide)
          hRhd hlast
        rw [hjoin]
        rcases R with _ | ⟨r0, rr⟩
        · rw [if_pos rfl]
          rw [show ('[' :: A ++ [']']) ++ ('(' :: S ++ [')']) =
            '[' :: (A ++ ']' :: '(' :: (S ++ ')' :: [])) from by simp]
          rw [stripCtx_bp hA1 hA3 hS1 hS2 hS4]
          rfl
        · rw [if_neg (by simp)]
          rw [show (('[' :: A ++ [']']) ++ ('(' :: S ++ [')'])) ++ ' ' :: r0 :: rr =
            '[' :: (A ++ ']' :: '(' :: (S ++ ')' :: ' ' :: r0 :: rr)) from by simp]
          rw [stripCtx_bp hA1 hA3 hS1 hS2 hS4]
          rw [List.dropWhile_cons, if_pos (by decide)]
          rw [List.dropWhile_cons, if_neg (by simp [hRhd r0 rr rfl])]
      · have hctxeq : mkCtx A S R = '[' :: A ++ [']'] := by
          unfold mkCtx
          rw [if_pos hb, if_neg hs, List.append_nil]
        rw [hctxeq]
        have hjoin := pyStrip_join (x := '[' :: A ++ [']']) (R := R)
          (by simp)
          (fun c cs h => by
            simp only [List.cons_append] at h
            injection h with h1 _
            subst h1
            decide)
          (fun z hz => by
            rw [getLast?_concat'] at hz
            injection hz with hz1
            rw [← hz1]
            decide)
          hRhd hlast
        rw [hjoin]
        rcases R with _ | ⟨r0, rr⟩
        · rw [if_pos rfl]
          rw [show ('[' :: A ++ [']'] : List Char) = '[' :: (A ++ ']' :: []) from by simp]
          rw [stripCtx_b hA1 hA3]
          rfl
        · rw [if_neg (by simp)]
          rw [show ('[' :: A ++ [']']) ++ ' ' :: r0 :: rr =
            '[' :: (A ++ ']' :: ' ' :: r0 :: rr) from by simp]
          rw [stripCtx_b hA1 hA3]
          rw [stripParenOnce_skip (fun c cs h => by
            injection h with h1 _
            subst h1
            decide)]
          rw [List.dropWhile_cons, if_pos (by decide)]
          rw [List.dropWhile_cons, if_neg (by simp [hRhd r0 rr rfl])]
    · by_cases hs : S ≠ [] ∧ pyLower S ≠ ("default").data ∧ ¬ startsDigit S = true ∧
          ¬ containsSub R S = true
      · have hctxeq : mkCtx A S R = '(' :: S ++ [')'] := by
          unfold mkCtx
          rw [if_neg hb, if_pos hs, List.nil_append]
        rw [hctxeq]
        have hjoin := pyStrip_join (x := '(' :: S ++ [')']) (R := R)
          (by simp)
          (fun c cs h => by
            simp only [List.cons_append] at h
            injection h with h1 _
            subst h1
            decide)
          (fun z hz => by
            rw [getLast?_concat'] at hz
            injection hz with hz1
            rw [← hz1]
            decide)
          hRhd hlast
        rw [hjoin]
        rcases R with _ | ⟨r0, rr⟩
        · rw [if_pos rfl]
          rw [show ('(' :: S ++ [')'] : List Char) = '(' :: (S ++ ')' :: []) from by simp]
          rw [stripCtx_p hS1 hS2 hS4]
          rfl
        · rw [if_neg (by simp)]
          rw [show ('(' :: S ++ [')']) ++ ' ' :: r0 :: rr =
            '(' :: (S ++ ')' :: ' ' :: r0 :: rr) from by simp]
          rw [stripCtx_p hS1 hS2 hS4]
          rw [List.dropWhile_cons, if_pos (by decide)]
          rw [List.dropWhile_cons, if_neg (by simp [hRhd r0 rr rfl])]
      · exfalso
        apply hctx
        unfold mkCtx
        rw [if_neg hb, if_neg hs]
        rfl

theorem bindCleanup_unit {d : DInfo} (h : safeD d = true) :
    bindCleanup (pyStrip (textOf d)) = rawKOf d := by
  obtain ⟨-, hbs, hnlR, hheadR, hlastR, hA1, -, hA3, hS1, hS2, -, hS4, -, -⟩ :=
    safeD_elim h
  have hsc : stripCtx (pyStrip (textOf d)) = rawKOf d :=
    stripHint_all hA1 hA3 hS1 hS2 hS4
      (fun c cs hc => ⟨(hheadR c cs hc).1, (hheadR c cs hc).2.2⟩) hlastR
  unfold bindCleanup
  rw [hsc]
  exact bindTail hbs hnlR (fun c cs hc => (hheadR c cs hc).1) hlastR

end AssDocument

namespace AssDocument

theorem blockOf_no_bs {m : Nat} {d : DInfo} (h : safeD d = true) :
    '\\' ∉ blockOf m d := by
  have hse := safeD_elim h
  have hts1 := hse.2.2.2.2.2.2.2.2.2.2.2.2.1
  have hts2 := hse.2.2.2.2.2.2.2.2.2.2.2.2.2
  intro hm
  have h1 : '\\' ∉ natStr m := fun hx => absurd (natStr_all_dig m '\\' hx) (by decide)
  have h2 : '\\' ∉ assTimeToSrt (pyStrip (d.parts.getD 1 [])) :=
    fun hx => (strictSrt_mem hts1 '\\' hx).1 rfl
  have h3 : '\\' ∉ assTimeToSrt (pyStrip (d.parts.getD 2 [])) :=
    fun hx => (strictSrt_mem hts2 '\\' hx).1 rfl
  have h4 : '\\' ∉ textOf d := fun hx => (textOf_chars h '\\' hx).1 rfl
  simp only [List.getD_eq_getElem?_getD] at h2 h3
  simp only [blockOf, pseudoBlock, List.mem_append, List.mem_cons,
    List.not_mem_nil, or_false] at hm
  simp [h1, h2, h3, h4, show ('\\' : Char) ≠ '\n' from by decide,
    show ('\\' : Char) ≠ ' ' from by decide, show ('\\' : Char) ≠ '-' from by decide,
    show ('\\' : Char) ≠ '>' from by decide] at hm

theorem streamOf_no_bs : ∀ (ds : List DInfo) (m : Nat),
    (∀ d ∈ ds, safeD d = true) → '\\' ∉ streamOf m ds := by
  intro ds
  induction ds with
  | nil => intro m _ hm; simp [streamOf] at hm
  | cons d ds ih =>
    intro m hs hm
    simp only [streamOf] at hm
    rw [show blockOf m d ++ nl2 ++ streamOf (m + 1) ds =
      blockOf m d ++ (nl2 ++ streamOf (m + 1) ds) from List.append_assoc _ _ _] at hm
    rcases List.mem_append.mp hm with h | h
    · exact blockOf_no_bs (hs d (List.mem_cons_self d ds)) h
    · rcases List.mem_append.mp h with h2 | h2
      · simp [nl2] at h2
      · exact ih (m + 1) (fun e he => hs e (List.mem_cons_of_mem d he)) h2

theorem buildStream_blocks : ∀ (ds : List DInfo) (m : Nat),
    buildStream (blocksFrom m ds) = streamOf m ds := by
  intro ds
  induction ds with
  | nil => intro m; rfl
  | cons d ds ih =>
    intro m
    have hne : blockOf m d ≠ [] := by
      intro h0
      have hlen := congrArg List.length h0
      simp only [blockOf, pseudoBlock, List.length_append, List.length_cons,
        List.length_nil] at hlen
      have hn : 0 < (natStr m).length := List.length_pos.mpr (natStr_ne_nil m)
      omega
    rw [show blocksFrom m (d :: ds) = blockOf m d :: blocksFrom (m + 1) ds from rfl]
    rw [show buildStream (blockOf m d :: blocksFrom (m + 1) ds) =
      if blockOf m d = [] then buildStream (blocksFrom (m + 1) ds)
      else blockOf m d ++ '\n' :: '\n' :: buildStream (blocksFrom (m + 1) ds) from rfl]
    rw [if_neg hne, ih (m + 1)]
    simp only [streamOf]
    simp [nl2]

theorem normalizeStream_noop {l : List Char} (h : '\\' ∉ l) : normalizeStream l = l := by
  unfold normalizeStream
  rw [replaceSub_noop h, replaceSub_noop h]

theorem parseDs_inv : ∀ (lines : List (List Char)) (b : Bool) (d : DInfo),
    d ∈ parseDs b lines →
    d.parts = pySplitCharMax ',' 9 d.line ∧
      ¬ (pySplitCharMax ',' 9 d.line).length < 10 := by
  intro lines
  induction lines with
  | nil =>
    intro b d h
    simp [parseDs] at h
  | cons line rest ih =>
    intro b d h
    simp only [parseDs] at h
    split_ifs at h with h1 h2 h3 h4 h5 h6
    · exact ih b d h
    · exact ih true d h
    · exact ih b d h
    · exact ih b d h
    · rcases List.mem_cons.mp h with h0 | h0
      · subst h0
        exact ⟨rfl, h6⟩
      · exact ih b d h0
    · exact ih b d h
    · exact ih b d h

end AssDocument

theorem pySplitCharMax_ne_nil (sep : Char) : ∀ (n : Nat) (l : List Char),
    pySplitCharMax sep n l ≠ []
  | _, [] => by simp [pySplitCharMax]
  | 0, _ :: _ => by simp [pySplitCharMax]
  | m + 1, c :: t => by
    simp only [pySplitCharMax]
    split
    · simp
    · exact consHead_ne_nil _ _

theorem pySplitCharMax_len (sep : Char) : ∀ (n : Nat) (l : List Char),
    (pySplitCharMax sep n l).length ≤ n + 1
  | _, [] => by simp [pySplitCharMax]
  | 0, _ :: _ => by simp [pySplitCharMax]
  | m + 1, c :: t => by
    simp only [pySplitCharMax]
    split
    · simp only [List.length_cons]
      have := pySplitCharMax_len sep m t
      omega
    · rcases hp : pySplitCharMax sep (m + 1) t with _ | ⟨p, ps⟩
      · exact absurd hp (pySplitCharMax_ne_nil sep (m + 1) t)
      · rw [show consHead c (p :: ps) = (c :: p) :: ps from rfl]
        have := pySplitCharMax_len sep (m + 1) t
        rw [hp] at this
        simp only [List.length_cons] at this ⊢
        omega

theorem joinChar_pySplitCharMax (sep : Char) : ∀ (n : Nat) (l : List Char),
    joinChar sep (pySplitCharMax sep n l) = l
  | _, [] => by simp [pySplitCharMax, joinChar]
  | 0, _ :: _ => by simp [pySplitCharMax, joinChar]
  | m + 1, c :: t => by
    simp only [pySplitCharMax]
    split
    · rename_i hc
      rcases hp : pySplitCharMax sep m t with _ | ⟨p, ps⟩
      · exact absurd hp (pySplitCharMax_ne_nil sep m t)
      · rw [show joinChar sep ([] :: p :: ps) = [] ++ sep :: joinChar sep (p :: ps)
          from rfl]
        rw [← hp, joinChar_pySplitCharMax sep m t]
        rw [hc]
        rfl
    · rcases hp : pySplitCharMax sep (m + 1) t with _ | ⟨p, ps⟩
      · exact absurd hp (pySplitCharMax_ne_nil sep (m + 1) t)
      · rw [show consHead c (p :: ps) = (c :: p) :: ps from rfl]
        cases ps with
        | nil =>
          rw [show joinChar sep [c :: p] = c :: p from rfl]
          have h0 := joinChar_pySplitCharMax sep (m + 1) t
          rw [hp] at h0
          rw [show joinChar sep [p] = p from rfl] at h0
          rw [h0]
        | cons q qs =>
          rw [show joinChar sep ((c :: p) :: q :: qs) =
            (c :: p) ++ sep :: joinChar sep (q :: qs) from rfl]
          have h0 := joinChar_pySplitCharMax sep (m + 1) t
          rw [hp] at h0
          rw [show joinChar sep (p :: q :: qs) =
            p ++ sep :: joinChar sep (q :: qs) from rfl] at h0
          rw [show (c :: p) ++ sep :: joinChar sep (q :: qs) =
            c :: (p ++ sep :: joinChar sep (q :: qs)) from rfl]
          rw [h0]

theorem joinChar_snoc (sep : Char) : ∀ (xs : List (List Char)) (y : List Char),
    xs ≠ [] → joinChar sep (xs ++ [y]) = joinChar sep xs ++ sep :: y
  | [], _, h => absurd rfl h
  | [x], y, _ => rfl
  | x1 :: x2 :: t, y, _ => by
    rw [show ((x1 :: x2 :: t) ++ [y] : List (List Char)) =
      x1 :: ((x2 :: t) ++ [y]) from rfl]
    rw [show joinChar sep (x1 :: ((x2 :: t) ++ [y])) =
      x1 ++ sep :: joinChar sep ((x2 :: t) ++ [y]) from ?_]
    · rw [joinChar_snoc sep (x2 :: t) y (by simp)]
      rw [show joinChar sep (x1 :: x2 :: t) = x1 ++ sep :: joinChar sep (x2 :: t)
        from rfl]
      simp [List.append_assoc]
    · rfl

theorem drop9_single {parts : List (List Char)} (h : parts.length = 10) :
    parts.drop 9 = [parts.getD 9 []] := by
  have hl : (parts.drop 9).length = 1 := by
    rw [List.length_drop, h]
  rcases hd : parts.drop 9 with _ | ⟨x, _ | ⟨y, ys⟩⟩
  · rw [hd] at hl
    simp at hl
  · have hx : parts[9]? = some x := by
      have h0 : (parts.drop 9)[0]? = some x := by
        rw [hd]
        rfl
      rw [List.getElem?_drop] at h0
      exact h0
    rw [List.getD_eq_getElem?_getD, hx]
    rfl
  · rw [hd] at hl
    simp at hl

theorem joinChar_take10 (sep : Char) {parts : List (List Char)} (h : parts.length = 10) :
    joinChar sep parts = joinChar sep (parts.take 9) ++ sep :: parts.getD 9 [] := by
  have htk : parts.take 9 ≠ [] := by
    intro h0
    have hlen := congrArg List.length h0
    simp [List.length_take, h] at hlen
  conv_lhs => rw [← List.take_append_drop 9 parts]
  rw [drop9_single h]
  rw [joinChar_snoc sep _ _ htk]

namespace AssDocument

theorem line_recon {d : DInfo} (hsafe : safeD d = true)
    (hp : d.parts = pySplitCharMax ',' 9 d.line)
    (hn : ¬ (pySplitCharMax ',' 9 d.line).length < 10) :
    prefixOf d ++ rawKOf d = d.line := by
  have hk : rawKOf d = d.parts.getD 9 [] := by
    unfold rawKOf
    rw [(safeD_elim hsafe).1]
  have hlen : d.parts.length = 10 := by
    have h1 := pySplitCharMax_len ',' 9 d.line
    rw [← hp] at h1 hn
    omega
  unfold prefixOf
  rw [hk]
  rw [show (joinChar ',' (d.parts.take 9) ++ [',']) ++ d.parts.getD 9 [] =
    joinChar ',' (d.parts.take 9) ++ ',' :: d.parts.getD 9 [] from by simp]
  rw [← joinChar_take10 ',' hlen]
  rw [hp, joinChar_pySplitCharMax]

theorem saveEventLines_cons (t u : List Char) (T U : List (List Char)) :
    saveEventLines (t :: T) (u :: U) =
      (t ++ bindCleanup u) :: saveEventLines T U := by
  unfold saveEventLines
  rw [List.length_cons, List.range_succ_eq_map, List.map_cons]
  simp only [List.map_map]
  congr 1

theorem bind_all : ∀ (ds : List DInfo),
    (∀ d ∈ ds, safeD d = true ∧ d.parts = pySplitCharMax ',' 9 d.line ∧
      ¬ (pySplitCharMax ',' 9 d.line).length < 10) →
    saveEventLines (ds.map prefixOf) (ds.map (fun e => pyStrip (textOf e))) =
      ds.map (fun e => e.line) := by
  intro ds
  induction ds with
  | nil =>
    intro _
    simp [saveEventLines]
  | cons d ds ih =>
    intro h
    have hd := h d (List.mem_cons_self d ds)
    rw [List.map_cons, List.map_cons, List.map_cons, saveEventLines_cons]
    rw [bindCleanup_unit hd.1]
    rw [line_recon hd.1 hd.2.1 hd.2.2]
    rw [ih (fun e he => h e (List.mem_cons_of_mem d he))]

end AssDocument

/-- C2: for every ASS document whose parsed Dialogue events satisfy the
no-target-condition side of the claim (`docOk`: no karaoke tag, no backslash
and no newline in the recovered text, a text that does not begin with
whitespace, a digit or a strip-pattern opener and does not end with
whitespace, tag texts that do not close their own delimiters, and timestamps
that convert to the exact `HH:MM:SS,mmm` shape), a round trip through `load`
and `save` with the identity transformer — the response blocks are exactly
the pseudo-SRT blocks `load` encoded — reproduces the original stripped
Dialogue event lines byte-for-byte. -/
theorem claim_C2_identity_round_trip (lines : List (List Char))
    (h : AssDocument.docOk lines = true) :
    (AssDocument.save (AssDocument.load lines)
      (AssDocument.load lines).items).eventLines =
      AssDocument.loadDialogues lines := by
  have hspec := AssDocument.loadAux_spec lines false 1
  have hsafe : ∀ d ∈ AssDocument.parseDs false lines, AssDocument.safeD d = true := by
    unfold AssDocument.docOk at h
    exact fun d hd => List.all_eq_true.mp h d hd
  show AssDocument.saveEventLines (AssDocument.load lines).templates
      (AssDocument.translatedUnits (AssDocument.normalizeStream
        (AssDocument.buildStream (AssDocument.load lines).items))) =
      AssDocument.loadDialogues lines
  rw [show (AssDocument.load lines).items =
    AssDocument.blocksFrom 1 (AssDocument.parseDs false lines) from hspec.2.1]
  rw [show (AssDocument.load lines).templates =
    (AssDocument.parseDs false lines).map AssDocument.prefixOf from hspec.1]
  rw [AssDocument.buildStream_blocks]
  rw [AssDocument.normalizeStream_noop (AssDocument.streamOf_no_bs _ 1 hsafe)]
  unfold AssDocument.loadDialogues
  cases hds : AssDocument.parseDs false lines with
  | nil => decide
  | cons d ds =>
    have hsafe2 : ∀ e ∈ d :: ds, AssDocument.safeD e = true :=
      fun e he => hsafe e (by rw [hds]; exact he)
    rw [AssDocument.translatedUnits_stream hsafe2]
    rw [AssDocument.segsFrom_strip]
    rw [show pyStrip (AssDocument.textOf d) ::
      ds.map (fun e => pyStrip (AssDocument.textOf e)) =
      (d :: ds).map (fun e => pyStrip (AssDocument.textOf e)) from rfl]
    exact AssDocument.bind_all (d :: ds) (fun e he =>
      ⟨hsafe2 e he,
       (AssDocument.parseDs_inv lines false e (by rw [hds]; exact he)).1,
       (AssDocument.parseDs_inv lines false e (by rw [hds]; exact he)).2⟩)

/-- Closed witness for C2: the round-trip identity holds on a concrete
five-line document with one Dialogue event, whose safety condition is
discharged by evaluation. -/
theorem claim_C2_identity_round_trip_witness :
    AssDocument.docOk
      [("[Script Info]").data, ("").data, ("[Events]").data,
       ("Format: Layer, Start, End, Style, Name, MarginL, MarginR, MarginV, Effect, Text").data,
       ("Dialogue: 0,0:00:01.00,0:00:02.00,Main,Rin,0,0,0,,Hello").data] = true ∧
    (AssDocument.save
      (AssDocument.load
        [("[Script Info]").data, ("").data, ("[Events]").data,
         ("Format: Layer, Start, End, Style, Name, MarginL, MarginR, MarginV, Effect, Text").data,
         ("Dialogue: 0,0:00:01.00,0:00:02.00,Main,Rin,0,0,0,,Hello").data])
      (AssDocument.load
        [("[Script Info]").data, ("").data, ("[Events]").data,
         ("Format: Layer, Start, End, Style, Name, MarginL, MarginR, MarginV, Effect, Text").data,
         ("Dialogue: 0,0:00:01.00,0:00:02.00,Main,Rin,0,0,0,,Hello").data]).items).eventLines =
      AssDocument.loadDialogues
        [("[Script Info]").data, ("").data, ("[Events]").data,
         ("Format: Layer, Start, End, Style, Name, MarginL, MarginR, MarginV, Effect, Text").data,
         ("Dialogue: 0,0:00:01.00,0:00:02.00,Main,Rin,0,0,0,,Hello").data] :=
  ⟨by decide,
   claim_C2_identity_round_trip
     [("[Script Info]").data, ("").data, ("[Events]").data,
      ("Format: Layer, Start, End, Style, Name, MarginL, MarginR, MarginV, Effect, Text").data,
      ("Dialogue: 0,0:00:01.00,0:00:02.00,Main,Rin,0,0,0,,Hello").data]
     (by decide)⟩
